import Mathlib

/-!
# KeyVault: the vault (portfolio) of the key manager

A shallow embedding of `key_vault_portfolio.go` and `key_vault_marshalable.go`.

* A Go `map[string]uuid.UUID` is `Option (AList ..)`: `none` is the nil map of a
  zero-value `KeyVault`, `some m` an initialised map with distinct keys.
* The storage behind `portfolio.context.Storage` is an interface; its
  implementation is a record of functions over a state `σ` that is threaded
  through every call.
* Every operation returns an `Outcome`: what the Go function returns (or the
  panic that ends it), the vault and the storage state afterwards, and the
  calls it made, in order.
-/

namespace Eth2KeyManager

/-! ## Data model -/

/-- A Go `error` value, by its message. -/
abbrev Error := String

/-- The type `uuid.UUID`: a 128-bit identifier. -/
abbrev UUID := Fin (2 ^ 128)

/-- The type `core.HDKey` as the spec's data model gives it: an identifier, the
absolute path and the private scalar. -/
structure HDKey where
  id : UUID
  path : String
  privKey : Nat
deriving DecidableEq, Repr

/-- The wallet built by `wallet_hd.NewHDWallet`. The reference to the shared
context is not a field: the storage state is threaded explicitly. -/
structure Wallet where
  id : UUID
  name : String
  key : HDKey
  path : String
deriving DecidableEq, Repr

/-- A Go `map[string]uuid.UUID`; `none` is the nil map. -/
abbrev IndexMapper := Option (AList (fun _ : String => UUID))

/-- The struct `KeyVault` (receiver `portfolio` / `vault`). -/
structure KeyVault where
  id : UUID
  enableSimpleSigner : Bool
  indexMapper : IndexMapper
  key : HDKey
deriving DecidableEq

/-- Go `len(m)`: zero for the nil map. -/
def mapLen : IndexMapper → Nat
  | none => 0
  | some m => m.entries.length

/-- Go `v, exists := m[k]`: absent in the nil map. -/
def mapGet : IndexMapper → String → Option UUID
  | none, _ => none
  | some m, k => m.lookup k

/-- Go `delete(m, k)`: a no-op on the nil map. -/
def mapDelete : IndexMapper → String → IndexMapper
  | none, _ => none
  | some m, k => some (m.erase k)

/-- The names of the index, in the order the association list holds them. -/
def mapKeys : IndexMapper → List String
  | none => []
  | some m => m.keys

/-- What a Go function hands back: its value, its error, or the panic that
ended it. -/
inductive Ret (α : Type) where
  | ok (a : α)
  | error (e : Error)
  | panic (msg : String)
deriving DecidableEq

/-- One call made while an operation runs, with what it returned. -/
inductive Event where
  | Derive (path : String)
  | SaveWallet (w : Wallet) (err : Option Error)
  | SavePortfolio (v : KeyVault) (err : Option Error)
  | OpenWallet (id : UUID)
deriving DecidableEq

/-- The interface `core.Storage`, as far as the vault calls it. Each call may
change the storage state, also when it reports an error. -/
structure Storage (σ : Type) where
  SaveWallet : σ → Wallet → σ × Option Error
  SavePortfolio : σ → KeyVault → σ × Option Error
  OpenWallet : σ → UUID → σ × Except Error Wallet

/-- The result of one operation on a vault. -/
structure Outcome (σ α : Type) where
  ret : Ret α
  vault : KeyVault
  store : σ
  trace : List Event

/-- From `Except` (a Go `(value, error)` pair) to `Ret`. -/
def Ret.ofExcept {α : Type} : Except Error α → Ret α
  | .ok a => .ok a
  | .error e => .error e

/-! ## key_vault_portfolio.go -/

/-- Modelled from the spec: `wallet_hd.NewHDWallet` is not among the sources. The
spec's data model gives a wallet an id generated at creation, the name, the
derived key and the relative path; the generated id is the argument `fresh`. -/
def NewHDWallet (fresh : UUID) (name : String) (key : HDKey) (path : String) : Wallet :=
  { id := fresh, name := name, key := key, path := path }

/-- Go `fmt.Sprintf("/%d", id)` for the non-negative `id := len(..)`. -/
def walletPath (id : Nat) : String := "/" ++ toString id

/-- The closure `reset` of `CreateWallet`: `delete(portfolio.indexMapper, name)`. -/
def reset (portfolio : KeyVault) (name : String) : KeyVault :=
  { portfolio with indexMapper := mapDelete portfolio.indexMapper name }

/-- The method `KeyVault.CreateWallet`. `Derive` is `portfolio.key.Derive` and
`fresh` the identifier `NewHDWallet` generates. -/
def CreateWallet {σ : Type} (St : Storage σ) (Derive : HDKey → String → Except Error HDKey)
    (fresh : UUID) (portfolio : KeyVault) (s : σ) (name : String) : Outcome σ Wallet :=
  let id := mapLen portfolio.indexMapper
  let path := walletPath id
  match Derive portfolio.key path with
  | .error err => ⟨.error err, portfolio, s, [.Derive path]⟩
  | .ok key =>
    let retWallet := NewHDWallet fresh name key path
    match portfolio.indexMapper with
    | none => ⟨.panic "assignment to entry in nil map", portfolio, s, [.Derive path]⟩
    | some m =>
      let registered : KeyVault := { portfolio with indexMapper := some (m.insert name retWallet.id) }
      match St.SaveWallet s retWallet with
      | (s1, some err) =>
        ⟨.error err, reset registered name, s1, [.Derive path, .SaveWallet retWallet (some err)]⟩
      | (s1, none) =>
        match St.SavePortfolio s1 registered with
        | (s2, some err) =>
          ⟨.error err, reset registered name, s2,
            [.Derive path, .SaveWallet retWallet none, .SavePortfolio registered (some err)]⟩
        | (s2, none) =>
          ⟨.ok retWallet, registered, s2,
            [.Derive path, .SaveWallet retWallet none, .SavePortfolio registered none]⟩

/-- The method `KeyVault.WalletByID`. -/
def WalletByID {σ : Type} (St : Storage σ) (portfolio : KeyVault) (s : σ) (id : UUID) :
    Outcome σ Wallet :=
  let r := St.OpenWallet s id
  ⟨Ret.ofExcept r.2, portfolio, r.1, [.OpenWallet id]⟩

/-- The method `KeyVault.WalletByName`. -/
def WalletByName {σ : Type} (St : Storage σ) (portfolio : KeyVault) (s : σ) (name : String) :
    Outcome σ Wallet :=
  match mapGet portfolio.indexMapper name with
  | none => ⟨.error "no wallet found", portfolio, s, []⟩
  | some id => WalletByID St portfolio s id


/-! ## key_vault_marshalable.go -/

/-- A JSON document that the scanner of `encoding/json` accepts (valid syntax,
within its nesting limit), by the values it is decoded into:
`nil`, `bool`, `float64` (kept as its literal, which may be out of range),
`string`, `[]interface{}` and `map[string]interface{}`. The fields of an object
are the entries of the decoded map (a key repeated in the document stands once,
with its last value), listed in the order of the document; the same list gives
the order in which a `range` visits them. A key is looked up with `List.lookup`. -/
inductive JValue where
  | null
  | bool (b : Bool)
  | number (literal : String)
  | string (s : String)
  | array (items : List JValue)
  | object (fields : List (String × JValue))

/-- The part of `github.com/google/uuid` the vault uses: `MarshalText` (the text
of `String()`, which `json.Marshal` writes for a `uuid.UUID`) and `Parse`, which
returns a value together with its error. -/
structure UuidCodec where
  MarshalText : UUID → String
  Parse : String → UUID × Option Error

/-- Go `json.Marshal` of a `map[string]uuid.UUID`: `null` for the nil map, else an
object with one string per name. -/
def marshalIndex (U : UuidCodec) : IndexMapper → JValue
  | none => .null
  | some m => .object (m.entries.map fun e => (e.1, .string (U.MarshalText e.2)))

/-- The method `KeyVault.MarshalJSON`, by the JSON value its bytes encode;
`json.Marshal` writes the keys of `data` in sorted order and has no error for
these three types. -/
def MarshalJSON (U : UuidCodec) (vault : KeyVault) : JValue :=
  .object [("enableSimpleSigner", .bool vault.enableSimpleSigner),
    ("id", .string (U.MarshalText vault.id)),
    ("indexMapper", marshalIndex U vault.indexMapper)]

/-- The value of the key `k` in a JSON object; `none` when `j` is not an object or
has no such key. -/
def jsonField (j : JValue) (k : String) : Option JValue :=
  match j with
  | .object fields => fields.lookup k
  | _ => none

/-- The dynamic type Go names in the panic of a failed type assertion. -/
def goTypeName : JValue → String
  | .null => "nil"
  | .bool _ => "bool"
  | .number _ => "float64"
  | .string _ => "string"
  | .array _ => "[]interface {}"
  | .object _ => "map[string]interface {}"

/-- The run-time panic of the type assertion `val.(want)` on a value of another
dynamic type. -/
def conversionPanic (val : JValue) (want : String) : String :=
  "interface conversion: interface {} is " ++ goTypeName val ++ ", not " ++ want

/-- The number a run of decimal digits spells. -/
def natOfDigits (ds : List Char) : Nat :=
  ds.foldl (fun acc c => acc * 10 + (c.toNat - 48)) 0

/-- The power `10 ^ n`, by repeated multiplication. -/
def pow10 : Nat → Nat
  | 0 => 1
  | n + 1 => 10 * pow10 n

/-- The least magnitude that does not round to a finite `float64`:
`2 ^ 1024 - 2 ^ 970`, half a unit in the last place above the largest one. -/
def float64Limit : Nat := (2 ^ 54 - 1) * (2 ^ 194 * 2 ^ 194 * 2 ^ 194 * 2 ^ 194 * 2 ^ 194)

/-- Go `strconv.ParseFloat(literal, 64)` reports no range error for the JSON
number `literal` (sign, digits, optional fraction, optional exponent): its
magnitude is below `float64Limit`. -/
def fitsFloat64 (literal : String) : Bool :=
  let cs := literal.data.dropWhile fun c => c = '-'
  let mantissa := cs.takeWhile fun c => c ≠ 'e' ∧ c ≠ 'E'
  let exponent := (cs.dropWhile fun c => c ≠ 'e' ∧ c ≠ 'E').drop 1
  let whole := mantissa.takeWhile fun c => c ≠ '.'
  let fraction := (mantissa.dropWhile fun c => c ≠ '.').drop 1
  let m := natOfDigits (whole ++ fraction)
  let e := natOfDigits (exponent.dropWhile fun c => c = '+' ∨ c = '-')
  if exponent.head? = some '-' then decide (m < float64Limit * pow10 (e + fraction.length))
  else if fraction.length ≤ e then decide (m * pow10 (e - fraction.length) < float64Limit)
  else decide (m < float64Limit * pow10 (fraction.length - e))

mutual
/-- The first number of the document, in its order, that does not fit a
`float64`: decoding into an `interface{}` fails on it. -/
def JValue.firstOverflow : JValue → Option String
  | .number literal => if fitsFloat64 literal then none else some literal
  | .array items => firstOverflowItems items
  | .object fields => firstOverflowFields fields
  | _ => none
/-- The first number out of range among the items of an array. -/
def firstOverflowItems : List JValue → Option String
  | [] => none
  | x :: xs =>
    match x.firstOverflow with
    | some literal => some literal
    | none => firstOverflowItems xs
/-- The first number out of range among the fields of an object. -/
def firstOverflowFields : List (String × JValue) → Option String
  | [] => none
  | (_, x) :: xs =>
    match x.firstOverflow with
    | some literal => some literal
    | none => firstOverflowFields xs
end

/-- Go `json.Unmarshal(data, &v)` for `v map[string]interface{}` on a
well-formed document: an object fills the map, unless one of its numbers is out
of the range of `float64`, which is the error returned; `null` leaves the map
nil (no key is found in it); anything else is a type error. -/
def decodeObject : JValue → Except Error (List (String × JValue))
  | .object fields =>
    match firstOverflowFields fields with
    | some literal =>
      .error ("json: cannot unmarshal number " ++ literal ++ " into Go value of type float64")
    | none => .ok fields
  | .null => .ok []
  | .bool _ => .error "json: cannot unmarshal bool into Go value of type map[string]interface {}"
  | .number _ =>
    .error "json: cannot unmarshal number into Go value of type map[string]interface {}"
  | .string _ =>
    .error "json: cannot unmarshal string into Go value of type map[string]interface {}"
  | .array _ => .error "json: cannot unmarshal array into Go value of type map[string]interface {}"

/-- The loop `for k,v := range val.(map[string]interface{})` of `UnmarshalJSON`:
`acc` is `vault.indexMapper`. The entry is assigned before the error of
`uuid.Parse` is looked at. -/
def unmarshalIndex (U : UuidCodec) :
    AList (fun _ : String => UUID) → List (String × JValue) →
      Ret Unit × AList (fun _ : String => UUID)
  | acc, [] => (.ok (), acc)
  | acc, (k, .string sv) :: rest =>
    match (U.Parse sv).2 with
    | some err => (.error err, acc.insert k (U.Parse sv).1)
    | none => unmarshalIndex U (acc.insert k (U.Parse sv).1) rest
  | acc, (_, .null) :: _ => (.panic (conversionPanic .null "string"), acc)
  | acc, (_, .bool b) :: _ => (.panic (conversionPanic (.bool b) "string"), acc)
  | acc, (_, .number n) :: _ => (.panic (conversionPanic (.number n) "string"), acc)
  | acc, (_, .array xs) :: _ => (.panic (conversionPanic (.array xs) "string"), acc)
  | acc, (_, .object fs) :: _ => (.panic (conversionPanic (.object fs) "string"), acc)

/-- The third block of `UnmarshalJSON`, on the key `indexMapper`. -/
def unmarshalIndexField (U : UuidCodec) (vault : KeyVault) (v : List (String × JValue)) :
    Ret Unit × KeyVault :=
  match v.lookup "indexMapper" with
  | none => (.error "could not find var: indexMapper", vault)
  | some (.object entries) =>
    ((unmarshalIndex U ∅ entries).1,
      { vault with indexMapper := some (unmarshalIndex U ∅ entries).2 })
  | some val =>
    (.panic (conversionPanic val "map[string]interface {}"), { vault with indexMapper := some ∅ })

/-- The second block of `UnmarshalJSON`, on the key `enableSimpleSigner`, and what
follows it. The check `err != nil` after the assignment never fires: `err` is nil
there. -/
def unmarshalSignerField (U : UuidCodec) (vault : KeyVault) (v : List (String × JValue)) :
    Ret Unit × KeyVault :=
  match v.lookup "enableSimpleSigner" with
  | none => (.error "could not find var: enableSimpleSigner", vault)
  | some (.bool b) => unmarshalIndexField U { vault with enableSimpleSigner := b } v
  | some val => (.panic (conversionPanic val "bool"), vault)

/-- The method `KeyVault.UnmarshalJSON` on a well-formed document `data`: what it
returns (`ok ()` for a nil error) and the receiver afterwards. -/
def UnmarshalJSON (U : UuidCodec) (vault : KeyVault) (data : JValue) : Ret Unit × KeyVault :=
  match decodeObject data with
  | .error err => (.error err, vault)
  | .ok v =>
    match v.lookup "id" with
    | none => (.error "could not find var: id", vault)
    | some (.string str) =>
      match (U.Parse str).2 with
      | some err => (.error err, { vault with id := (U.Parse str).1 })
      | none => unmarshalSignerField U { vault with id := (U.Parse str).1 } v
    | some val => (.panic (conversionPanic val "string"), vault)

/-- The three keys `UnmarshalJSON` requires, in the order it looks for them. -/
def requiredKeys : List String := ["id", "enableSimpleSigner", "indexMapper"]

/-- The first required key that the object does not have. -/
def firstAbsent (fields : List (String × JValue)) : Option String :=
  requiredKeys.find? fun k => (fields.lookup k).isNone

/-- A value for `id`, or for an entry of `indexMapper`, of the right shape: a
string that `uuid.Parse` accepts. -/
def WellShapedId (U : UuidCodec) : JValue → Prop
  | .string s => (U.Parse s).2 = none
  | _ => False

/-- A value for `enableSimpleSigner` of the right shape: a boolean. -/
def WellShapedFlag : JValue → Prop
  | .bool _ => True
  | _ => False

/-- A value for `indexMapper` of the right shape: an object of well-shaped ids. -/
def WellShapedIndex (U : UuidCodec) : JValue → Prop
  | .object entries => ∀ e ∈ entries, WellShapedId U e.2
  | _ => False

/-- Every required key that is present has a value of the right shape. -/
def WellShaped (U : UuidCodec) (fields : List (String × JValue)) : Prop :=
  (∀ j, fields.lookup "id" = some j → WellShapedId U j) ∧
  (∀ j, fields.lookup "enableSimpleSigner" = some j → WellShapedFlag j) ∧
  (∀ j, fields.lookup "indexMapper" = some j → WellShapedIndex U j)

/-- The uuid library reads back the text it writes for `u`. -/
abbrev ReadsBack (U : UuidCodec) (u : UUID) : Prop :=
  U.Parse (U.MarshalText u) = (u, none)

/-! ## Sequences of CreateWallet calls -/

/-- A vault, the state of its storage and the calls made so far. -/
structure World (σ : Type) where
  vault : KeyVault
  store : σ
  log : List Event

/-- One CreateWallet call on a world: `c.1` is the name, `c.2` the identifier the
new wallet is given. -/
def createStep {σ : Type} (St : Storage σ) (Derive : HDKey → String → Except Error HDKey)
    (w : World σ) (c : String × UUID) : World σ :=
  let out := CreateWallet St Derive c.2 w.vault w.store c.1
  ⟨out.vault, out.store, w.log ++ out.trace⟩

/-- Successive CreateWallet calls on one vault, in the order of the list. -/
def createWallets {σ : Type} (St : Storage σ) (Derive : HDKey → String → Except Error HDKey) :
    World σ → List (String × UUID) → World σ
  | w, [] => w
  | w, c :: rest => createWallets St Derive (createStep St Derive w c) rest

/-- The derivation paths used, in order, in a list of calls. -/
def derivedPaths : List Event → List String
  | [] => []
  | .Derive path :: es => path :: derivedPaths es
  | _ :: es => derivedPaths es

/-- Every name of the index maps to the id of a wallet for which SaveWallet has
returned success in `log`. -/
def IndexSaved (v : KeyVault) (log : List Event) : Prop :=
  ∀ name id, mapGet v.indexMapper name = some id →
    ∃ w, Event.SaveWallet w none ∈ log ∧ w.id = id

/-! ## Wallets: the producer and its channel -/

/-- A Go channel of wallets: the values in its buffer (oldest first), the
capacity given to `make`, and whether `close` has been called on it. -/
structure Chan where
  buf : List Wallet
  cap : Nat
  closed : Bool
deriving DecidableEq

/-- Go `make(chan core.Wallet, cap)`: open and empty. -/
def makeChan (cap : Nat) : Chan := { buf := [], cap := cap, closed := false }

/-- The goroutine that `Wallets` starts, run while nothing is received from the
channel: the channel, the vault, the storage state, the calls made, and whether
the goroutine is stuck in a send on a full buffer. -/
structure Producer (σ : Type) where
  ch : Chan
  vault : KeyVault
  store : σ
  trace : List Event
  blocked : Bool

/-- One turn of the loop `for name := range portfolio.indexMapper`. Go reads the
zero UUID for a name that is not in the map. -/
def walletsStep {σ : Type} (St : Storage σ) (p : Producer σ) (name : String) : Producer σ :=
  if p.blocked then p
  else
    let id := (mapGet p.vault.indexMapper name).getD 0
    let out := WalletByID St p.vault p.store id
    match out.ret with
    | .ok wallet =>
      if p.ch.buf.length < p.ch.cap then
        { ch := { p.ch with buf := p.ch.buf ++ [wallet] }, vault := out.vault,
          store := out.store, trace := p.trace ++ out.trace, blocked := false }
      else
        { ch := p.ch, vault := out.vault, store := out.store, trace := p.trace ++ out.trace,
          blocked := true }
    | _ =>
      { ch := p.ch, vault := out.vault, store := out.store, trace := p.trace ++ out.trace,
        blocked := false }

/-- The method `KeyVault.Wallets`: the channel of capacity 1024 and the goroutine
that fills it, run to its end (or to the send it is stuck in). `order` is the
order in which `range` visits the names of the index. -/
def Wallets {σ : Type} (St : Storage σ) (portfolio : KeyVault) (s : σ) (order : List String) :
    Producer σ :=
  order.foldl (walletsStep St)
    { ch := makeChan 1024, vault := portfolio, store := s, trace := [], blocked := false }

/-- What `for w := range ch` receives once the producer has finished, and whether
the loop ends: it ends only on a closed channel; on an open, drained channel the
receive waits forever. -/
def rangeOverChan (ch : Chan) : List Wallet × Bool := (ch.buf, ch.closed)

/-- The id the index gives a name, as the loop of `Wallets` reads it. -/
def idOf (v : KeyVault) (name : String) : UUID := (mapGet v.indexMapper name).getD 0

/-- Following the claim: the wallets that `Storage.OpenWallet` resolves for the
given ids, asked one after the other; an id whose lookup fails gives nothing. -/
def resolvedWallets {σ : Type} (St : Storage σ) : σ → List UUID → List Wallet
  | _, [] => []
  | s, id :: ids =>
    match St.OpenWallet s id with
    | (s1, .ok w) => w :: resolvedWallets St s1 ids
    | (s1, .error _) => resolvedWallets St s1 ids

/-- `OpenWallet` only reads: it leaves the storage state as it was. -/
def OpenOnlyReads {σ : Type} (St : Storage σ) : Prop :=
  ∀ s id, (St.OpenWallet s id).1 = s

/-- The wallet of a successful lookup. -/
def okWallet : Except Error Wallet → Option Wallet
  | .ok w => some w
  | .error _ => none

/-- The storage write calls among the calls of a trace. -/
def storageWrites : List Event → List Event
  | [] => []
  | .SaveWallet w e :: es => .SaveWallet w e :: storageWrites es
  | .SavePortfolio v e :: es => .SavePortfolio v e :: storageWrites es
  | _ :: es => storageWrites es

/-- The write calls of a CreateWallet(name) with outcome `out`, which built the
wallet `w`, are a prefix of [SaveWallet(w), SavePortfolio(p)] that stops at the
first failing call: no call at all only when the index is the nil map and the
call panics; SaveWallet alone when it fails; otherwise SaveWallet and then
SavePortfolio on a vault `p` whose index has `name -> w.id`, with nothing after
it, whether it fails or not. The storage is left as the last call left it. -/
def WritesStopAtFirstFailure {σ : Type} (St : Storage σ) (s : σ) (v : KeyVault)
    (name : String) (w : Wallet) (out : Outcome σ Wallet) : Prop :=
  (v.indexMapper = none ∧ storageWrites out.trace = [] ∧
    out.ret = .panic "assignment to entry in nil map") ∨
  (∃ e, storageWrites out.trace = [.SaveWallet w (some e)] ∧ out.ret = .error e ∧
    out.store = (St.SaveWallet s w).1) ∨
  (∃ (p : KeyVault) (r : Option Error),
    storageWrites out.trace = [.SaveWallet w none, .SavePortfolio p r] ∧
    mapGet p.indexMapper name = some w.id ∧
    out.ret = (match r with
      | some e => .error e
      | none => .ok w) ∧
    out.store = (St.SavePortfolio (St.SaveWallet s w).1 p).1)

/-! ## wallet_options.go -/

/-- The struct `PortfolioOptions`. `Enc` stands for `wtypes.Encryptor` and `Sto`
for the `interface{}` of the storage; `none` is a nil interface. -/
structure PortfolioOptions (Enc Sto : Type) where
  encryptor : Option Enc
  password : List UInt8
  storage : Option Sto
  enableSimpleSigner : Bool
  seed : List UInt8

/-- The method `PortfolioOptions.SetEncryptor`. -/
def PortfolioOptions.SetEncryptor {Enc Sto : Type} (options : PortfolioOptions Enc Sto)
    (encryptor : Option Enc) : PortfolioOptions Enc Sto :=
  { options with encryptor := encryptor }

/-- The method `PortfolioOptions.SetStorage`. -/
def PortfolioOptions.SetStorage {Enc Sto : Type} (options : PortfolioOptions Enc Sto)
    (storage : Option Sto) : PortfolioOptions Enc Sto :=
  { options with storage := storage }

/-- The method `PortfolioOptions.SetPassword`: the bytes of the string. -/
def PortfolioOptions.SetPassword {Enc Sto : Type} (options : PortfolioOptions Enc Sto)
    (password : String) : PortfolioOptions Enc Sto :=
  { options with password := password.toUTF8.toList }

/-- The method `PortfolioOptions.EnableSimpleSigner`: the body assigns the
constant `true`; the argument `val` is not read. -/
def PortfolioOptions.EnableSimpleSigner {Enc Sto : Type} (options : PortfolioOptions Enc Sto)
    (_val : Bool) : PortfolioOptions Enc Sto :=
  { options with enableSimpleSigner := true }

/-- The method `PortfolioOptions.SetSeed`. -/
def PortfolioOptions.SetSeed {Enc Sto : Type} (options : PortfolioOptions Enc Sto)
    (seed : List UInt8) : PortfolioOptions Enc Sto :=
  { options with seed := seed }

/-! ## core: the HD key tree

`core/hd_key.go` is not among the sources; its test `core/hd_key_test.go` is. The
definitions of this section are written from the spec and from what the test
expects. -/

/-- The constant `basePath` of `hd_key_test.go`. -/
def basePath : String := "m/12381/3600"

/-- The error of a rejected relative path, as `hd_key_test.go` expects it. -/
def invalidRelativePath : Error := "invalid relative path. Example: /1/2/3"

/-- The curve arithmetic the key tree is built on (a supplied capability): the
root scalar of a seed, the child scalar of a scalar and an index, and the bytes
of the public key of a scalar. Scalars fit 32 bytes. -/
structure KeyDerivation where
  masterScalar : List UInt8 → Nat
  childScalar : Nat → Nat → Nat
  publicKey : Nat → List UInt8
  masterScalar_lt : ∀ seed, masterScalar seed < 2 ^ 256
  childScalar_lt : ∀ parent index, childScalar parent index < 2 ^ 256

/-- Modelled from the spec: the path grammar of `HDKey.Derive`, after the leading
`/` of a group, with `n` digits of the group read so far: a group is `/` followed
by 1 to 3 decimal digits, and the whole path is matched. -/
def validFrom : Nat → List Char → Bool
  | n, [] => decide (1 ≤ n)
  | n, c :: cs =>
    if c = '/' then decide (1 ≤ n) && validFrom 0 cs
    else if c.isDigit then decide (n < 3) && validFrom (n + 1) cs
    else false

/-- Modelled from the spec: the validation of a relative path by `HDKey.Derive`:
one or more groups of `/` followed by 1 to 3 decimal digits. The spec's grammar
also lists the empty string; `hd_key_test.go` expects the error for it
("Base account derivation (base path only)"), and the test is followed. -/
def validateRelativePath (relativePath : String) : Bool :=
  match relativePath.data with
  | '/' :: cs => validFrom 0 cs
  | _ => false

/-- Modelled from the spec: the segments `HDKey.Derive` reads from a validated
path, after the leading `/` of a group, with `cur` the digits of the group read
so far. -/
def segmentsFrom : List Char → List Char → List (List Char)
  | cur, [] => [cur]
  | cur, c :: cs =>
    if c = '/' then cur :: segmentsFrom [] cs
    else segmentsFrom (cur ++ [c]) cs

/-- Modelled from the spec: the segments of a validated relative path, as
`HDKey.Derive` walks them. -/
def pathSegments (relativePath : String) : List (List Char) :=
  match relativePath.data with
  | '/' :: cs => segmentsFrom [] cs
  | _ => []

/-- Modelled from the spec: the index a segment denotes: the number its digits
spell in decimal, after `cur` (leading zeros permitted). -/
def segValue (cur : Nat) (seg : List Char) : Nat :=
  seg.foldl (fun acc c => acc * 10 + (c.toNat - 48)) cur

/-- Modelled from the spec: `MasterKeyFromSeed`, absent from the sources. It
derives the root scalar from the seed, sets the path to the base prefix and
fails with `InvalidSeed` on the empty seed; `fresh` is the identifier the key is
given. -/
def MasterKeyFromSeed (K : KeyDerivation) (fresh : UUID) (seed : List UInt8) :
    Except Error HDKey :=
  if seed = [] then .error "InvalidSeed"
  else .ok { id := fresh, path := basePath, privKey := K.masterScalar seed }

/-- Modelled from the spec: one derivation step of `HDKey.Derive`. It combines the
current scalar with the index of the segment and appends the segment, after a
`/`, to the path. The segment is appended as it is written: `hd_key_test.go`
expects `Path()` to be the base path followed by the relative path. -/
def deriveStep (K : KeyDerivation) (key : HDKey) (segment : List Char) : HDKey :=
  { key with privKey := K.childScalar key.privKey (segValue 0 segment),
             path := key.path ++ String.mk ('/' :: segment) }

/-- Modelled from the spec: `HDKey.Derive`, absent from the sources. A path that
fails the grammar gives the error; otherwise one step is taken for each segment,
and the resulting key gets the fresh identifier `fresh`. -/
def Derive (K : KeyDerivation) (fresh : UUID) (key : HDKey) (relativePath : String) :
    Except Error HDKey :=
  if validateRelativePath relativePath then
    .ok { (pathSegments relativePath).foldl (deriveStep K) key with id := fresh }
  else .error invalidRelativePath

/-- Modelled from the spec: the method `HDKey.Path`, absent from the sources: the
absolute path string of the key. -/
def HDKey.Path (key : HDKey) : String := key.path

/-- Modelled from the spec: `HDKey.PublicKey`, the projection of the private
scalar onto the public group. -/
def HDKey.PublicKey (K : KeyDerivation) (key : HDKey) : List UInt8 :=
  K.publicKey key.privKey

/-- A segment of a relative path: 1 to 3 decimal digits. -/
def IsSegment (seg : List Char) : Prop :=
  1 ≤ seg.length ∧ seg.length ≤ 3 ∧ ∀ c ∈ seg, c.isDigit = true

/-- The text of a list of segments: each one after a `/`. -/
def joinSegments (segs : List (List Char)) : List Char :=
  segs.flatMap fun seg => '/' :: seg

/-- The grammar of relative paths in the spec's words: the whole path is one or
more groups of `/` followed by 1 to 3 decimal digits. -/
def IsRelativePath (relativePath : String) : Prop :=
  ∃ segs : List (List Char), segs ≠ [] ∧ (∀ seg ∈ segs, IsSegment seg) ∧
    relativePath.data = joinSegments segs

/-- The relative path that spells the given indices in decimal, without leading
zeros: `/i1/i2/..`. -/
def pathOfIndices (indices : List Nat) : String :=
  String.mk (joinSegments (indices.map fun i => (toString i).data))

/-- Some run of more than 3 consecutive decimal digits occurs in the path. -/
def HasLongSegment (relativePath : String) : Prop :=
  ∃ before digits after_, relativePath.data = before ++ digits ++ after_ ∧
    3 < digits.length ∧ ∀ c ∈ digits, c.isDigit = true

/-- The path of the key derived at `p` from the master key of `seed`; `none` when
the seed or the path is rejected. -/
def derivedPath (K : KeyDerivation) (seed : List UInt8) (p : String) : Option String :=
  match MasterKeyFromSeed K 1 seed with
  | .error _ => none
  | .ok master =>
    match Derive K 2 master p with
    | .error _ => none
    | .ok key => some key.Path

/-! ## Test doubles -/

/-- A derivation that accepts every relative path and appends it to the key's
path (stands in for `HDKey.Derive` where its grammar plays no part). -/
def deriveAny (k : HDKey) (rel : String) : Except Error HDKey :=
  .ok { k with path := k.path ++ rel }

/-- A derivation that rejects every relative path. -/
def deriveNone (_ : HDKey) (_ : String) : Except Error HDKey :=
  .error "invalid relative path. Example: /1/2/3"

/-- An in-memory storage: the state is the list of wallets saved so far, newest
first. `walletErr` and `portfolioErr` are what the two save calls report; a
save that reports an error stores nothing. -/
def memStorage (walletErr portfolioErr : Option Error) : Storage (List Wallet) where
  SaveWallet := fun s w =>
    match walletErr with
    | some e => (s, some e)
    | none => (w :: s, none)
  SavePortfolio := fun s _ => (s, portfolioErr)
  OpenWallet := fun s id =>
    match s.find? (fun w => decide (w.id = id)) with
    | some w => (s, .ok w)
    | none => (s, .error "wallet not found")

/-- Text of a 128-bit number as `width` hexadecimal digits, most significant
first. -/
def toHex : Nat → Nat → List Char
  | 0, _ => []
  | w + 1, n => toHex w (n / 16) ++ ["0123456789abcdef".data.getD (n % 16) '0']

/-- The value of one hexadecimal digit. -/
def hexValue (c : Char) : Option Nat :=
  if '0' ≤ c ∧ c ≤ '9' then some (c.toNat - 48)
  else if 'a' ≤ c ∧ c ≤ 'f' then some (c.toNat - 87)
  else if 'A' ≤ c ∧ c ≤ 'F' then some (c.toNat - 55)
  else none

/-- The number a list of hexadecimal digits spells, after `acc`. -/
def fromHex : Nat → List Char → Option Nat
  | acc, [] => some acc
  | acc, c :: cs =>
    match hexValue c with
    | some d => fromHex (acc * 16 + d) cs
    | none => none

/-- A stand-in for the uuid library that knows the canonical form
`xxxxxxxx-xxxx-xxxx-xxxx-xxxxxxxxxxxx` only. -/
def hexCodec : UuidCodec where
  MarshalText := fun u =>
    let h := toHex 32 u.val
    String.mk (h.take 8 ++ '-' :: (h.drop 8).take 4 ++ '-' :: (h.drop 12).take 4 ++
      '-' :: (h.drop 16).take 4 ++ '-' :: h.drop 20)
  Parse := fun s =>
    let cs := s.data
    if cs.length ≠ 36 then (0, some ("invalid UUID length: " ++ toString cs.length))
    else if cs.get? 8 ≠ some '-' ∨ cs.get? 13 ≠ some '-' ∨ cs.get? 18 ≠ some '-' ∨
        cs.get? 23 ≠ some '-' then (0, some "invalid UUID format")
    else
      match fromHex 0 (cs.take 8 ++ (cs.drop 9).take 4 ++ (cs.drop 14).take 4 ++
          (cs.drop 19).take 4 ++ cs.drop 24) with
      | some n => (⟨n % 2 ^ 128, Nat.mod_lt _ (Nat.two_pow_pos 128)⟩, none)
      | none => (0, some "invalid UUID format")

/-! ## core: the HDKey record -/

/-- Modelled from the spec: the serialization of an HDKey, absent from the
sources: the record `{id, path, privateScalar}` with the id as UUID text and the
scalar as the hexadecimal text of its 32 bytes. -/
def HDKey.MarshalJSON (U : UuidCodec) (key : HDKey) : JValue :=
  .object [("id", .string (U.MarshalText key.id)), ("path", .string key.path),
    ("privateScalar", .string (String.mk (toHex 64 key.privKey)))]

/-- Modelled from the spec: the deserialization of an HDKey, absent from the
sources. It fails with `MalformedRecord` when a required field is absent or is
not a string, or when the scalar is not the text of 32 bytes, and with the error
of the uuid library when the id does not parse. -/
def HDKey.UnmarshalJSON (U : UuidCodec) (data : JValue) : Except Error HDKey :=
  match jsonField data "id", jsonField data "path", jsonField data "privateScalar" with
  | some (.string id), some (.string path), some (.string scalar) =>
    match (U.Parse id).2 with
    | some err => .error err
    | none =>
      if scalar.data.length = 64 then
        match fromHex 0 scalar.data with
        | some n => .ok { id := (U.Parse id).1, path := path, privKey := n }
        | none => .error "MalformedRecord"
      else .error "MalformedRecord"
  | _, _, _ => .error "MalformedRecord"

/-- A stand-in for the curve arithmetic: small affine maps, reduced to 32 bytes. -/
def toyDerivation : KeyDerivation where
  masterScalar := fun seed => (seed.foldl (fun acc b => acc * 256 + b.toNat) 1) % 2 ^ 256
  childScalar := fun parent index => (parent * 1000 + index + 1) % 2 ^ 256
  publicKey := fun scalar => [UInt8.ofNat (scalar % 256)]
  masterScalar_lt := fun _ => Nat.mod_lt _ (Nat.two_pow_pos 256)
  childScalar_lt := fun _ _ => Nat.mod_lt _ (Nat.two_pow_pos 256)

/-- The master key used in the examples. -/
def exampleKey : HDKey := { id := 7, path := "m/12381/3600", privKey := 42 }

/-- A vault with an initialised, empty index. -/
def emptyVault : KeyVault :=
  { id := 1, enableSimpleSigner := false, indexMapper := some ∅, key := exampleKey }

/-- The zero-value vault `&KeyVault{}`: its index is the nil map. -/
def zeroVault : KeyVault :=
  { id := 0, enableSimpleSigner := false, indexMapper := none, key := exampleKey }

/-- A vault whose index holds the single entry `"a" -> 10`. -/
def vaultA : KeyVault :=
  { emptyVault with indexMapper := some (AList.singleton "a" 10) }

/-- A vault whose index holds `"a" -> 10` and `"b" -> 11`. -/
def vaultAB : KeyVault :=
  { emptyVault with indexMapper := some ((AList.singleton "a" 10).insert "b" 11) }

/-- A wallet with the id 10, as a storage may hold it. -/
def walletTen : Wallet :=
  NewHDWallet 10 "a" { exampleKey with path := "m/12381/3600/0" } "/0"

/-- The name of the wallet number `i` of `fullVault`: `i + 1` letters `w`. -/
def fillerName (i : Nat) : String := String.mk (List.replicate (i + 1) 'w')

/-- An index of 1000 names: the wallet number `i` has the id `i`. -/
def fullIndex : AList (fun _ : String => UUID) where
  entries := (List.range 1000).map fun i =>
    ⟨fillerName i, ⟨i % 2 ^ 128, Nat.mod_lt _ (Nat.two_pow_pos 128)⟩⟩
  nodupKeys := by
    rw [List.nodupKeys_iff_pairwise, List.pairwise_map]
    refine (List.nodup_range 1000).imp ?_
    intro a b hab heq
    apply hab
    have hlen := congrArg (fun t : String => t.data.length) heq
    simpa [fillerName] using hlen

/-- A vault whose index holds 1000 names. -/
def fullVault : KeyVault :=
  { emptyVault with indexMapper := some fullIndex }

/-! ## Properties of storages -/

/-- `OpenWallet(id)` returns the wallet last saved under `id`: a wallet just saved
is the one opened under its id, and saving the vault record does not change
which wallet an id opens. -/
structure ReturnsLastSaved {σ : Type} (St : Storage σ) : Prop where
  open_saved : ∀ s w, (St.SaveWallet s w).2 = none →
    (St.OpenWallet (St.SaveWallet s w).1 w.id).2 = .ok w
  open_after_portfolio : ∀ s v id, (St.SavePortfolio s v).2 = none →
    (St.OpenWallet (St.SavePortfolio s v).1 id).2 = (St.OpenWallet s id).2

/-- Both save calls of the storage always report success. -/
def SavesSucceed {σ : Type} (St : Storage σ) : Prop :=
  (∀ s w, (St.SaveWallet s w).2 = none) ∧ (∀ s v, (St.SavePortfolio s v).2 = none)

/-- During the operation with outcome `out`, `SaveWallet` or `SavePortfolio`
returned the error `e`. -/
def SaveFailedWith {σ α : Type} (out : Outcome σ α) (e : Error) : Prop :=
  (∃ w, Event.SaveWallet w (some e) ∈ out.trace) ∨
  (∃ v, Event.SavePortfolio v (some e) ∈ out.trace)

/-! ## Lemmas on the index -/

theorem mapGet_mapDelete_self (m : IndexMapper) (k : String) : mapGet (mapDelete m k) k = none := by
  cases m with
  | none => rfl
  | some m => simp [mapDelete, mapGet]

theorem mapGet_reset_self (v : KeyVault) (k : String) :
    mapGet (reset v k).indexMapper k = none := by
  simp [reset, mapGet_mapDelete_self]

theorem memStorage_returnsLastSaved (pe : Option Error) : ReturnsLastSaved (memStorage none pe) where
  open_saved := by
    intro s w _
    simp [memStorage, List.find?]
  open_after_portfolio := by
    intro s v id _
    simp [memStorage]

/-! ## The five ways through CreateWallet -/

section Paths

variable {σ : Type} (St : Storage σ) (Derive : HDKey → String → Except Error HDKey)
  (fresh : UUID) (v : KeyVault) (s : σ) (name : String)

/-- The vault with `name` registered under `fresh` in the initialised index `m`. -/
def registered (v : KeyVault) (m : AList (fun _ : String => UUID)) (name : String)
    (fresh : UUID) : KeyVault :=
  { v with indexMapper := some (m.insert name fresh) }

theorem createWallet_derive_error {err : Error}
    (hd : Derive v.key (walletPath (mapLen v.indexMapper)) = .error err) :
    CreateWallet St Derive fresh v s name =
      ⟨.error err, v, s, [.Derive (walletPath (mapLen v.indexMapper))]⟩ := by
  simp only [CreateWallet, hd]

theorem createWallet_nil_index {key : HDKey}
    (hd : Derive v.key (walletPath (mapLen v.indexMapper)) = .ok key)
    (hm : v.indexMapper = none) :
    CreateWallet St Derive fresh v s name =
      ⟨.panic "assignment to entry in nil map", v, s,
        [.Derive (walletPath (mapLen v.indexMapper))]⟩ := by
  obtain ⟨vid, flag, im, k⟩ := v
  subst hm
  simp only [CreateWallet, hd]

theorem createWallet_saveWallet_error {key : HDKey} {m : AList (fun _ : String => UUID)}
    {s1 : σ} {err : Error}
    (hd : Derive v.key (walletPath (mapLen v.indexMapper)) = .ok key)
    (hm : v.indexMapper = some m)
    (hs : St.SaveWallet s (NewHDWallet fresh name key (walletPath (mapLen v.indexMapper)))
      = (s1, some err)) :
    CreateWallet St Derive fresh v s name =
      ⟨.error err, reset (registered v m name fresh) name, s1,
        [.Derive (walletPath (mapLen v.indexMapper)),
         .SaveWallet (NewHDWallet fresh name key (walletPath (mapLen v.indexMapper)))
           (some err)]⟩ := by
  obtain ⟨vid, flag, im, k⟩ := v
  subst hm
  simp only [NewHDWallet] at hs
  simp only [CreateWallet, NewHDWallet, hd, hs, registered]

theorem createWallet_savePortfolio_error {key : HDKey} {m : AList (fun _ : String => UUID)}
    {s1 s2 : σ} {err : Error}
    (hd : Derive v.key (walletPath (mapLen v.indexMapper)) = .ok key)
    (hm : v.indexMapper = some m)
    (hs : St.SaveWallet s (NewHDWallet fresh name key (walletPath (mapLen v.indexMapper)))
      = (s1, none))
    (hp : St.SavePortfolio s1 (registered v m name fresh) = (s2, some err)) :
    CreateWallet St Derive fresh v s name =
      ⟨.error err, reset (registered v m name fresh) name, s2,
        [.Derive (walletPath (mapLen v.indexMapper)),
         .SaveWallet (NewHDWallet fresh name key (walletPath (mapLen v.indexMapper))) none,
         .SavePortfolio (registered v m name fresh) (some err)]⟩ := by
  obtain ⟨vid, flag, im, k⟩ := v
  subst hm
  simp only [registered, NewHDWallet] at hs hp
  simp only [CreateWallet, NewHDWallet, hd, hs, hp, registered]

theorem createWallet_success {key : HDKey} {m : AList (fun _ : String => UUID)}
    {s1 s2 : σ}
    (hd : Derive v.key (walletPath (mapLen v.indexMapper)) = .ok key)
    (hm : v.indexMapper = some m)
    (hs : St.SaveWallet s (NewHDWallet fresh name key (walletPath (mapLen v.indexMapper)))
      = (s1, none))
    (hp : St.SavePortfolio s1 (registered v m name fresh) = (s2, none)) :
    CreateWallet St Derive fresh v s name =
      ⟨.ok (NewHDWallet fresh name key (walletPath (mapLen v.indexMapper))),
        registered v m name fresh, s2,
        [.Derive (walletPath (mapLen v.indexMapper)),
         .SaveWallet (NewHDWallet fresh name key (walletPath (mapLen v.indexMapper))) none,
         .SavePortfolio (registered v m name fresh) none]⟩ := by
  obtain ⟨vid, flag, im, k⟩ := v
  subst hm
  simp only [registered, NewHDWallet] at hs hp
  simp only [CreateWallet, NewHDWallet, hd, hs, hp, registered]

/-- The way CreateWallet took, with the outcome it gives. -/
inductive CreatePath : Outcome σ Wallet → Prop where
  | deriveError (err : Error) :
      CreatePath ⟨.error err, v, s, [.Derive (walletPath (mapLen v.indexMapper))]⟩
  | nilIndex :
      CreatePath ⟨.panic "assignment to entry in nil map", v, s,
        [.Derive (walletPath (mapLen v.indexMapper))]⟩
  | saveWalletError (key : HDKey) (m : AList (fun _ : String => UUID)) (s1 : σ) (err : Error)
      (hm : v.indexMapper = some m)
      (hs : St.SaveWallet s (NewHDWallet fresh name key (walletPath (mapLen v.indexMapper)))
        = (s1, some err)) :
      CreatePath ⟨.error err, reset (registered v m name fresh) name, s1,
        [.Derive (walletPath (mapLen v.indexMapper)),
         .SaveWallet (NewHDWallet fresh name key (walletPath (mapLen v.indexMapper)))
           (some err)]⟩
  | savePortfolioError (key : HDKey) (m : AList (fun _ : String => UUID)) (s1 s2 : σ)
      (err : Error) (hm : v.indexMapper = some m)
      (hs : St.SaveWallet s (NewHDWallet fresh name key (walletPath (mapLen v.indexMapper)))
        = (s1, none))
      (hp : St.SavePortfolio s1 (registered v m name fresh) = (s2, some err)) :
      CreatePath ⟨.error err, reset (registered v m name fresh) name, s2,
        [.Derive (walletPath (mapLen v.indexMapper)),
         .SaveWallet (NewHDWallet fresh name key (walletPath (mapLen v.indexMapper))) none,
         .SavePortfolio (registered v m name fresh) (some err)]⟩
  | success (key : HDKey) (m : AList (fun _ : String => UUID)) (s1 s2 : σ)
      (hm : v.indexMapper = some m)
      (hs : St.SaveWallet s (NewHDWallet fresh name key (walletPath (mapLen v.indexMapper)))
        = (s1, none))
      (hp : St.SavePortfolio s1 (registered v m name fresh) = (s2, none)) :
      CreatePath ⟨.ok (NewHDWallet fresh name key (walletPath (mapLen v.indexMapper))),
        registered v m name fresh, s2,
        [.Derive (walletPath (mapLen v.indexMapper)),
         .SaveWallet (NewHDWallet fresh name key (walletPath (mapLen v.indexMapper))) none,
         .SavePortfolio (registered v m name fresh) none]⟩

/-- Every call of CreateWallet takes one of the five ways. -/
theorem createWallet_path : CreatePath St fresh v s name (CreateWallet St Derive fresh v s name) := by
  cases hd : Derive v.key (walletPath (mapLen v.indexMapper)) with
  | error err =>
    rw [createWallet_derive_error St Derive fresh v s name hd]
    exact .deriveError err
  | ok key =>
    cases hm : v.indexMapper with
    | none =>
      rw [createWallet_nil_index St Derive fresh v s name hd hm]
      exact .nilIndex
    | some m =>
      rcases hs : St.SaveWallet s (NewHDWallet fresh name key (walletPath (mapLen v.indexMapper)))
        with ⟨s1, _ | err⟩
      · rcases hp : St.SavePortfolio s1 (registered v m name fresh) with ⟨s2, _ | err⟩
        · rw [createWallet_success St Derive fresh v s name hd hm hs hp]
          exact .success key m s1 s2 hm hs hp
        · rw [createWallet_savePortfolio_error St Derive fresh v s name hd hm hs hp]
          exact .savePortfolioError key m s1 s2 err hm hs hp
      · rw [createWallet_saveWallet_error St Derive fresh v s name hd hm hs]
        exact .saveWalletError key m s1 err hm hs

end Paths

/-! ## CreateWallet and the lookups -/

/-- C1: when SaveWallet or SavePortfolio returns the error `e` during
CreateWallet(name), CreateWallet returns no wallet and exactly `e`, the index has
no entry for `name` afterwards, and WalletByName(name) fails with
"no wallet found". -/
theorem createWallet_save_error_unregisters {σ : Type} (St : Storage σ)
    (Derive : HDKey → String → Except Error HDKey) (fresh : UUID) (v : KeyVault) (s : σ)
    (name : String) (e : Error)
    (h : SaveFailedWith (CreateWallet St Derive fresh v s name) e) :
    (CreateWallet St Derive fresh v s name).ret = .error e ∧
    mapGet (CreateWallet St Derive fresh v s name).vault.indexMapper name = none ∧
    (WalletByName St (CreateWallet St Derive fresh v s name).vault
      (CreateWallet St Derive fresh v s name).store name).ret = .error "no wallet found" := by
  have key : (CreateWallet St Derive fresh v s name).ret = .error e ∧
      mapGet (CreateWallet St Derive fresh v s name).vault.indexMapper name = none := by
    have hp := createWallet_path St Derive fresh v s name
    generalize CreateWallet St Derive fresh v s name = out at hp h ⊢
    cases hp with
    | deriveError err => simp [SaveFailedWith] at h
    | nilIndex => simp [SaveFailedWith] at h
    | saveWalletError key m s1 err hm hs =>
      simp [SaveFailedWith] at h
      exact ⟨by rw [h], mapGet_reset_self _ _⟩
    | savePortfolioError key m s1 s2 err hm hs hp =>
      simp [SaveFailedWith] at h
      exact ⟨by rw [h], mapGet_reset_self _ _⟩
    | success key m s1 s2 hm hs hp => simp [SaveFailedWith] at h
  refine ⟨key.1, key.2, ?_⟩
  unfold WalletByName
  rw [key.2]

/-- C1, at an example: SaveWallet fails with "disk full" while "a" is created in a
vault that already holds "a". -/
theorem createWallet_save_error_unregisters_witness :
    SaveFailedWith (CreateWallet (memStorage (some "disk full") none) deriveAny 5 vaultA [] "a")
      "disk full" ∧
    (CreateWallet (memStorage (some "disk full") none) deriveAny 5 vaultA [] "a").ret
      = .error "disk full" ∧
    mapGet (CreateWallet (memStorage (some "disk full") none) deriveAny 5 vaultA [] "a"
      ).vault.indexMapper "a" = none ∧
    (WalletByName (memStorage (some "disk full") none)
      (CreateWallet (memStorage (some "disk full") none) deriveAny 5 vaultA [] "a").vault
      (CreateWallet (memStorage (some "disk full") none) deriveAny 5 vaultA [] "a").store "a").ret
      = .error "no wallet found" :=
  have h : SaveFailedWith
      (CreateWallet (memStorage (some "disk full") none) deriveAny 5 vaultA [] "a") "disk full" :=
    Or.inl ⟨NewHDWallet 5 "a" { exampleKey with path := "m/12381/3600/1" } "/1", by decide⟩
  ⟨h, createWallet_save_error_unregisters _ _ _ _ _ _ _ h⟩

/-- C2: if CreateWallet(name) succeeds and returns `w`, then afterwards the index
maps `name` to `w.id` and WalletByName(name) is exactly the call
Storage.OpenWallet(w.id); with a storage that returns from OpenWallet(id) the
wallet last saved under id, that call returns `w` itself, a wallet whose id is
`w.id`. -/
theorem createWallet_ok_then_walletByName {σ : Type} (St : Storage σ)
    (Derive : HDKey → String → Except Error HDKey) (fresh : UUID) (v : KeyVault) (s : σ)
    (name : String) (w : Wallet)
    (h : (CreateWallet St Derive fresh v s name).ret = .ok w) :
    mapGet (CreateWallet St Derive fresh v s name).vault.indexMapper name = some w.id ∧
    WalletByName St (CreateWallet St Derive fresh v s name).vault
        (CreateWallet St Derive fresh v s name).store name =
      ⟨Ret.ofExcept (St.OpenWallet (CreateWallet St Derive fresh v s name).store w.id).2,
        (CreateWallet St Derive fresh v s name).vault,
        (St.OpenWallet (CreateWallet St Derive fresh v s name).store w.id).1,
        [.OpenWallet w.id]⟩ ∧
    (ReturnsLastSaved St →
      (St.OpenWallet (CreateWallet St Derive fresh v s name).store w.id).2 = .ok w ∧
      (WalletByName St (CreateWallet St Derive fresh v s name).vault
        (CreateWallet St Derive fresh v s name).store name).ret = .ok w) := by
  have hp := createWallet_path St Derive fresh v s name
  generalize CreateWallet St Derive fresh v s name = out at hp h ⊢
  cases hp with
  | deriveError err => simp at h
  | nilIndex => simp at h
  | saveWalletError key m s1 err hm hs => simp at h
  | savePortfolioError key m s1 s2 err hm hs hp => simp at h
  | success key m s1 s2 hm hs hp =>
    simp only [Ret.ok.injEq] at h
    subst h
    have hget : mapGet (registered v m name fresh).indexMapper name = some fresh := by
      simp [registered, mapGet]
    have hby : WalletByName St (registered v m name fresh) s2 name =
        ⟨Ret.ofExcept (St.OpenWallet s2 fresh).2, registered v m name fresh,
          (St.OpenWallet s2 fresh).1, [.OpenWallet fresh]⟩ := by
      simp only [WalletByName, hget, WalletByID]
    refine ⟨hget, hby, ?_⟩
    intro hl
    have h1 := hl.open_saved s (NewHDWallet fresh name key (walletPath (mapLen v.indexMapper)))
      (by rw [hs])
    have h2 := hl.open_after_portfolio s1 (registered v m name fresh) fresh (by rw [hp])
    rw [hs] at h1
    rw [hp] at h2
    have h3 : (St.OpenWallet s2 fresh).2 =
        .ok (NewHDWallet fresh name key (walletPath (mapLen v.indexMapper))) := by
      rw [h2]; exact h1
    refine ⟨h3, ?_⟩
    simp only [NewHDWallet] at hby h3 ⊢
    rw [hby]
    simp only [h3, Ret.ofExcept]

/-- C2, at an example: "b" is created in a vault that holds "a", over the
in-memory storage. -/
theorem createWallet_ok_then_walletByName_witness :
    (CreateWallet (memStorage none none) deriveAny 5 vaultA [] "b").ret =
      .ok (NewHDWallet 5 "b" { exampleKey with path := "m/12381/3600/1" } "/1") ∧
    mapGet (CreateWallet (memStorage none none) deriveAny 5 vaultA [] "b").vault.indexMapper "b"
      = some 5 ∧
    (WalletByName (memStorage none none)
      (CreateWallet (memStorage none none) deriveAny 5 vaultA [] "b").vault
      (CreateWallet (memStorage none none) deriveAny 5 vaultA [] "b").store "b").ret =
      .ok (NewHDWallet 5 "b" { exampleKey with path := "m/12381/3600/1" } "/1") :=
  have h := createWallet_ok_then_walletByName (memStorage none none) deriveAny 5 vaultA [] "b"
    (NewHDWallet 5 "b" { exampleKey with path := "m/12381/3600/1" } "/1") (by decide)
  ⟨by decide, h.1, (h.2.2 (memStorage_returnsLastSaved none)).2⟩

/-! ## Path ordinals -/

theorem derivedPaths_append (xs ys : List Event) :
    derivedPaths (xs ++ ys) = derivedPaths xs ++ derivedPaths ys := by
  induction xs with
  | nil => rfl
  | cons x xs ih => cases x <;> simp [derivedPaths, ih]

/-- With saves that succeed and a derivation that accepts the path, CreateWallet
for a name that is not registered takes the successful way. -/
theorem createStep_fresh_name {σ : Type} (St : Storage σ)
    (Derive : HDKey → String → Except Error HDKey) (w : World σ) (c : String × UUID)
    (m : AList (fun _ : String => UUID)) (hm : w.vault.indexMapper = some m)
    (hsave : SavesSucceed St)
    (hder : ∃ key, Derive w.vault.key (walletPath m.entries.length) = .ok key) :
    (createStep St Derive w c).vault = registered w.vault m c.1 c.2 ∧
    derivedPaths (createStep St Derive w c).log =
      derivedPaths w.log ++ [walletPath m.entries.length] := by
  obtain ⟨key, hkey⟩ := hder
  have hlen : mapLen w.vault.indexMapper = m.entries.length := by rw [hm]; rfl
  rw [← hlen] at hkey
  rcases hs : St.SaveWallet w.store (NewHDWallet c.2 c.1 key
    (walletPath (mapLen w.vault.indexMapper))) with ⟨s1, e1⟩
  have he1 : e1 = none := by
    have := hsave.1 w.store (NewHDWallet c.2 c.1 key (walletPath (mapLen w.vault.indexMapper)))
    rw [hs] at this; exact this
  subst he1
  rcases hp : St.SavePortfolio s1 (registered w.vault m c.1 c.2) with ⟨s2, e2⟩
  have he2 : e2 = none := by
    have := hsave.2 s1 (registered w.vault m c.1 c.2)
    rw [hp] at this; exact this
  subst he2
  have hc := createWallet_success St Derive c.2 w.vault w.store c.1 hkey hm hs hp
  simp only [createStep, hc, derivedPaths_append, derivedPaths, hlen, and_self]

theorem createWallets_paths_from {σ : Type} (St : Storage σ)
    (Derive : HDKey → String → Except Error HDKey) (k0 : HDKey) (hsave : SavesSucceed St)
    (hder : ∀ k, k < 1000 → ∃ key, Derive k0 (walletPath k) = .ok key)
    (calls : List (String × UUID)) :
    ∀ (w : World σ) (m : AList (fun _ : String => UUID)), w.vault.indexMapper = some m →
      w.vault.key = k0 → m.entries.length + calls.length ≤ 1000 →
      (∀ c ∈ calls, c.1 ∉ m) → (calls.map Prod.fst).Nodup →
      derivedPaths (createWallets St Derive w calls).log =
        derivedPaths w.log ++ (List.range' m.entries.length calls.length).map walletPath := by
  induction calls with
  | nil => intro w m _ _ _ _ _; simp [createWallets]
  | cons c rest ih =>
    intro w m hm hk hlen hnot hnd
    simp only [List.length_cons] at hlen
    simp only [List.map_cons, List.nodup_cons] at hnd
    have hstep := createStep_fresh_name St Derive w c m hm hsave
      (by rw [hk]; exact hder _ (by omega))
    have hcm : c.1 ∉ m := hnot c (List.mem_cons_self _ _)
    have hm1 : (createStep St Derive w c).vault.indexMapper = some (m.insert c.1 c.2) := by
      rw [hstep.1]; rfl
    have hk1 : (createStep St Derive w c).vault.key = k0 := by
      rw [hstep.1]; exact hk
    have hlen1 : (m.insert c.1 c.2).entries.length = m.entries.length + 1 := by
      rw [AList.insert_entries_of_neg hcm]; rfl
    have hnot1 : ∀ d ∈ rest, d.1 ∉ m.insert c.1 c.2 := by
      intro d hd hmem
      rcases (AList.mem_insert m).1 hmem with heq | hin
      · exact hnd.1 (heq ▸ List.mem_map_of_mem Prod.fst hd)
      · exact hnot d (List.mem_cons_of_mem _ hd) hin
    have := ih (createStep St Derive w c) (m.insert c.1 c.2) hm1 hk1 (by omega) hnot1 hnd.2
    simp only [createWallets, this, hstep.2, hlen1, List.length_cons, List.range'_succ,
      List.map_cons, List.append_assoc, List.singleton_append]

/-- C3 (amended): from a vault with an initialised empty index and a storage
whose saves all succeed, with a derivation that accepts the paths /0 .. /999, for
every `N <= 1000` and every sequence of `N` pairwise distinct wallet names, the
`N` successive CreateWallet calls use the paths /0, /1, .., /(N-1) in that order;
the ordinals are strictly increasing, hence pairwise distinct. -/
theorem createWallets_paths_of_distinct_names {σ : Type} (St : Storage σ)
    (Derive : HDKey → String → Except Error HDKey) (v : KeyVault) (s : σ)
    (calls : List (String × UUID))
    (hv : v.indexMapper = some ∅) (hsave : SavesSucceed St)
    (hder : ∀ k, k < 1000 → ∃ key, Derive v.key (walletPath k) = .ok key)
    (hN : calls.length ≤ 1000) (hnd : (calls.map Prod.fst).Nodup) :
    derivedPaths (createWallets St Derive ⟨v, s, []⟩ calls).log =
      (List.range calls.length).map walletPath ∧
    (List.range calls.length).Pairwise (· < ·) := by
  refine ⟨?_, List.pairwise_lt_range _⟩
  have := createWallets_paths_from St Derive v.key hsave hder calls ⟨v, s, []⟩ ∅ hv rfl
    (by simpa using hN) (fun c _ => AList.not_mem_empty c.1) hnd
  simpa [derivedPaths, List.range_eq_range'] using this

theorem memStorage_savesSucceed : SavesSucceed (memStorage none none) :=
  ⟨fun _ _ => rfl, fun _ _ => rfl⟩

/-- C3 (amended), at an example: the names "a", "b", "c" use /0, /1, /2. -/
theorem createWallets_paths_of_distinct_names_witness :
    derivedPaths (createWallets (memStorage none none) deriveAny ⟨emptyVault, [], []⟩
      [("a", 11), ("b", 12), ("c", 13)]).log = ["/0", "/1", "/2"] :=
  (createWallets_paths_of_distinct_names (memStorage none none) deriveAny emptyVault []
    [("a", 11), ("b", 12), ("c", 13)] rfl memStorage_savesSucceed
    (fun _ _ => ⟨_, rfl⟩) (by decide) (by decide)).1.trans (by decide)

/-- C3 as stated fails when a name repeats: creating "a", "a", "b" from an empty
index over a storage whose saves succeed uses the paths /0, /1, /1: the second
"a" replaces the entry of the first, so the index still holds one name when "b"
is created, and the ordinal 1 is used twice. -/
theorem createWallets_repeated_name_reuses_path :
    SavesSucceed (memStorage none none) ∧
    derivedPaths (createWallets (memStorage none none) deriveAny ⟨emptyVault, [], []⟩
      [("a", 11), ("a", 12), ("b", 13)]).log = ["/0", "/1", "/1"] ∧
    derivedPaths (createWallets (memStorage none none) deriveAny ⟨emptyVault, [], []⟩
      [("a", 11), ("a", 12), ("b", 13)]).log ≠ (List.range 3).map walletPath :=
  ⟨memStorage_savesSucceed, by decide, by decide⟩

/-! ## Names that are already registered, and the rollback -/

theorem mapGet_registered_self (v : KeyVault) (m : AList (fun _ : String => UUID))
    (name : String) (fresh : UUID) :
    mapGet (registered v m name fresh).indexMapper name = some fresh := by
  simp [registered, mapGet]

theorem mapGet_registered_ne (v : KeyVault) (m : AList (fun _ : String => UUID))
    (name k : String) (fresh : UUID) (hk : k ≠ name) :
    mapGet (registered v m name fresh).indexMapper k = m.lookup k := by
  simp [registered, mapGet, AList.lookup_insert_ne hk]

theorem mapGet_rollback_ne (v : KeyVault) (m : AList (fun _ : String => UUID))
    (name k : String) (fresh : UUID) (hk : k ≠ name) :
    mapGet (reset (registered v m name fresh) name).indexMapper k = m.lookup k := by
  simp [reset, registered, mapDelete, mapGet, AList.lookup_erase_ne hk,
    AList.lookup_insert_ne hk]

/-- C4, on the code: CreateWallet("a") on a vault whose index already holds
"a" -> 10, with saves that succeed, returns a wallet and no error, and the entry
of "a" is replaced by the id of the new wallet. -/
theorem createWallet_existing_name_overwrites :
    mapGet vaultA.indexMapper "a" = some 10 ∧
    (CreateWallet (memStorage none none) deriveAny 5 vaultA [] "a").ret =
      .ok (NewHDWallet 5 "a" { exampleKey with path := "m/12381/3600/1" } "/1") ∧
    mapGet (CreateWallet (memStorage none none) deriveAny 5 vaultA [] "a").vault.indexMapper "a"
      = some 5 := by
  decide

/-- C5 as stated fails for a name that is already registered: when SaveWallet
fails while "a" is created in a vault that holds "a" -> 10, the entry of "a" is
gone afterwards, so the index differs from the index before the call. -/
theorem createWallet_rollback_drops_existing_entry :
    SaveFailedWith (CreateWallet (memStorage (some "disk full") none) deriveAny 5 vaultA [] "a")
      "disk full" ∧
    mapGet vaultA.indexMapper "a" = some 10 ∧
    mapGet (CreateWallet (memStorage (some "disk full") none) deriveAny 5 vaultA [] "a"
      ).vault.indexMapper "a" = none :=
  ⟨Or.inl ⟨NewHDWallet 5 "a" { exampleKey with path := "m/12381/3600/1" } "/1", by decide⟩,
    by decide, by decide⟩

/-- C5 (amended): for every vault state and every name that is not registered,
when CreateWallet(name) fails because SaveWallet or SavePortfolio fails, the
index after the call is equal, as a mapping, to the index before the call. -/
theorem createWallet_rollback_restores_index {σ : Type} (St : Storage σ)
    (Derive : HDKey → String → Except Error HDKey) (fresh : UUID) (v : KeyVault) (s : σ)
    (name : String) (e : Error)
    (hnew : mapGet v.indexMapper name = none)
    (h : SaveFailedWith (CreateWallet St Derive fresh v s name) e) :
    ∀ k, mapGet (CreateWallet St Derive fresh v s name).vault.indexMapper k =
      mapGet v.indexMapper k := by
  have hp := createWallet_path St Derive fresh v s name
  generalize CreateWallet St Derive fresh v s name = out at hp h ⊢
  have hroll : ∀ (m : AList (fun _ : String => UUID)), v.indexMapper = some m →
      ∀ k, mapGet (reset (registered v m name fresh) name).indexMapper k =
        mapGet v.indexMapper k := by
    intro m hm k
    by_cases hk : k = name
    · subst hk
      rw [mapGet_reset_self, hnew]
    · rw [mapGet_rollback_ne v m name k fresh hk, hm]
      rfl
  cases hp with
  | deriveError err => intro k; rfl
  | nilIndex => intro k; rfl
  | saveWalletError key m s1 err hm hs => exact hroll m hm
  | savePortfolioError key m s1 s2 err hm hs hp => exact hroll m hm
  | success key m s1 s2 hm hs hp => simp [SaveFailedWith] at h

/-- C5 (amended), at an example: SavePortfolio fails while "b" is created in a
vault that holds only "a". -/
theorem createWallet_rollback_restores_index_witness :
    mapGet (CreateWallet (memStorage none (some "read-only")) deriveAny 5 vaultA [] "b"
      ).vault.indexMapper "a" = some 10 :=
  (createWallet_rollback_restores_index (memStorage none (some "read-only")) deriveAny 5 vaultA []
    "b" "read-only" (by decide)
    (Or.inr ⟨registered vaultA (AList.singleton "a" 10) "b" 5,
      List.mem_cons_of_mem _ (List.mem_cons_of_mem _ (List.mem_cons_self _ _))⟩) "a").trans
    (by decide)

/-! ## The index only names saved wallets -/

theorem indexSaved_mono (v : KeyVault) (log more : List Event) (h : IndexSaved v log) :
    IndexSaved v (log ++ more) := by
  intro name id hget
  obtain ⟨w, hw, hid⟩ := h name id hget
  exact ⟨w, List.mem_append_left _ hw, hid⟩

theorem indexSaved_rollback (v : KeyVault) (m : AList (fun _ : String => UUID))
    (name : String) (fresh : UUID) (log more : List Event) (hm : v.indexMapper = some m)
    (h : IndexSaved v log) :
    IndexSaved (reset (registered v m name fresh) name) (log ++ more) := by
  intro k id hget
  by_cases hk : k = name
  · subst hk
    rw [mapGet_reset_self] at hget
    cases hget
  · rw [mapGet_rollback_ne v m name k fresh hk] at hget
    obtain ⟨w, hw, hid⟩ := h k id (by rw [hm]; exact hget)
    exact ⟨w, List.mem_append_left _ hw, hid⟩

theorem indexSaved_createStep {σ : Type} (St : Storage σ)
    (Derive : HDKey → String → Except Error HDKey) (w : World σ) (c : String × UUID)
    (h : IndexSaved w.vault w.log) :
    IndexSaved (createStep St Derive w c).vault (createStep St Derive w c).log := by
  have hp := createWallet_path St Derive c.2 w.vault w.store c.1
  simp only [createStep]
  generalize CreateWallet St Derive c.2 w.vault w.store c.1 = out at hp ⊢
  cases hp with
  | deriveError err => exact indexSaved_mono _ _ _ h
  | nilIndex => exact indexSaved_mono _ _ _ h
  | saveWalletError key m s1 err hm hs => exact indexSaved_rollback _ m _ _ _ _ hm h
  | savePortfolioError key m s1 s2 err hm hs hp => exact indexSaved_rollback _ m _ _ _ _ hm h
  | success key m s1 s2 hm hs hp =>
    intro k id hget
    by_cases hk : k = c.1
    · subst hk
      rw [mapGet_registered_self] at hget
      refine ⟨NewHDWallet c.2 c.1 key (walletPath (mapLen w.vault.indexMapper)), ?_, ?_⟩
      · exact List.mem_append_right _ (List.mem_cons_of_mem _ (List.mem_cons_self _ _))
      · simpa [NewHDWallet] using hget
    · rw [mapGet_registered_ne w.vault m c.1 k c.2 hk] at hget
      obtain ⟨x, hx, hid⟩ := h k id (by rw [hm]; exact hget)
      exact ⟨x, List.mem_append_left _ hx, hid⟩

theorem indexSaved_createWallets {σ : Type} (St : Storage σ)
    (Derive : HDKey → String → Except Error HDKey) (calls : List (String × UUID)) :
    ∀ w : World σ, IndexSaved w.vault w.log →
      IndexSaved (createWallets St Derive w calls).vault (createWallets St Derive w calls).log := by
  induction calls with
  | nil => intro w h; exact h
  | cons c rest ih =>
    intro w h
    exact ih _ (indexSaved_createStep St Derive w c h)

/-- C6: the predicate "every name of the index maps to the id of a wallet for
which SaveWallet has returned success" is preserved by every CreateWallet call,
whichever way the call ends; hence it holds after any sequence of CreateWallet
calls on a vault that started with an empty index. -/
theorem createWallet_preserves_indexSaved {σ : Type} (St : Storage σ)
    (Derive : HDKey → String → Except Error HDKey) :
    (∀ (w : World σ) (name : String) (fresh : UUID), IndexSaved w.vault w.log →
      IndexSaved (CreateWallet St Derive fresh w.vault w.store name).vault
        (w.log ++ (CreateWallet St Derive fresh w.vault w.store name).trace)) ∧
    (∀ (v : KeyVault) (s : σ) (calls : List (String × UUID)), mapLen v.indexMapper = 0 →
      IndexSaved (createWallets St Derive ⟨v, s, []⟩ calls).vault
        (createWallets St Derive ⟨v, s, []⟩ calls).log) := by
  refine ⟨fun w name fresh h => indexSaved_createStep St Derive w (name, fresh) h, ?_⟩
  intro v s calls hlen
  apply indexSaved_createWallets
  intro name id hget
  exfalso
  cases hm : v.indexMapper with
  | none => rw [hm] at hget; cases hget
  | some m =>
    rw [hm] at hget hlen
    have hnil : m.entries = [] := List.length_eq_zero.mp hlen
    have : name ∈ m := AList.lookup_isSome.mp (by rw [show m.lookup name = some id from hget]; rfl)
    rw [AList.mem_keys, AList.keys, hnil] at this
    cases this

/-- C6, at an example: after "a" and "b" are created from the empty vault over the
in-memory storage, both names of the index belong to saved wallets. -/
theorem createWallet_preserves_indexSaved_witness :
    IndexSaved
      (createWallets (memStorage none none) deriveAny ⟨emptyVault, [], []⟩
        [("a", 11), ("b", 12)]).vault
      (createWallets (memStorage none none) deriveAny ⟨emptyVault, [], []⟩
        [("a", 11), ("b", 12)]).log :=
  (createWallet_preserves_indexSaved (memStorage none none) deriveAny).2 emptyVault []
    [("a", 11), ("b", 12)] (by decide)

/-! ## Lookups -/

/-- C7: WalletByName(name) returns "no wallet found" without calling storage if
and only if `name` is absent from the index; when `name` is present its outcome is
exactly that of WalletByID on the id of the index, which is exactly that of
Storage.OpenWallet on that id. Neither operation modifies the vault. -/
theorem walletByName_resolves_through_index {σ : Type} (St : Storage σ) (v : KeyVault) (s : σ)
    (name : String) :
    (((WalletByName St v s name).ret = .error "no wallet found" ∧
        (WalletByName St v s name).trace = []) ↔ mapGet v.indexMapper name = none) ∧
    (∀ id, mapGet v.indexMapper name = some id →
      WalletByName St v s name = WalletByID St v s id) ∧
    (∀ id, (WalletByID St v s id).ret = Ret.ofExcept (St.OpenWallet s id).2 ∧
      (WalletByID St v s id).store = (St.OpenWallet s id).1 ∧
      (WalletByID St v s id).trace = [.OpenWallet id] ∧
      (WalletByID St v s id).vault = v) ∧
    (WalletByName St v s name).vault = v := by
  refine ⟨?_, ?_, ?_, ?_⟩
  · cases hget : mapGet v.indexMapper name with
    | none => simp [WalletByName, hget]
    | some id => simp [WalletByName, hget, WalletByID]
  · intro id hget
    simp only [WalletByName, hget]
  · intro id
    exact ⟨rfl, rfl, rfl, rfl⟩
  · cases hget : mapGet v.indexMapper name with
    | none => simp [WalletByName, hget]
    | some id => simp [WalletByName, hget, WalletByID]

/-- C7, at an example: "a" resolves through the index of `vaultA` to the id 10. -/
theorem walletByName_resolves_through_index_witness :
    WalletByName (memStorage none none) vaultA [] "a" =
      WalletByID (memStorage none none) vaultA [] 10 :=
  (walletByName_resolves_through_index (memStorage none none) vaultA [] "a").2.1 10 (by decide)

/-! ## The vault record -/

theorem wellShapedId_string {U : UuidCodec} {j : JValue} (h : WellShapedId U j) :
    ∃ str, j = .string str ∧ (U.Parse str).2 = none := by
  cases j <;> first | exact h.elim | exact ⟨_, rfl, h⟩

theorem wellShapedFlag_bool {j : JValue} (h : WellShapedFlag j) : ∃ b, j = .bool b := by
  cases j <;> first | exact h.elim | exact ⟨_, rfl⟩

theorem decodeObject_of_fit {fields : List (String × JValue)}
    (h : firstOverflowFields fields = none) : decodeObject (.object fields) = .ok fields := by
  simp only [decodeObject, h]

/-- C8 as stated fails on an object that holds a number out of the range of
float64: in `{"note": 1e400}` the key id is absent and no required key is
present with a wrong shape, yet UnmarshalJSON returns the error of json.Unmarshal,
not "could not find var: id". -/
theorem unmarshalJSON_number_out_of_range :
    firstAbsent [("note", JValue.number "1e400")] = some "id" ∧
    WellShaped hexCodec [("note", JValue.number "1e400")] ∧
    (UnmarshalJSON hexCodec emptyVault (.object [("note", .number "1e400")])).1 =
      .error "json: cannot unmarshal number 1e400 into Go value of type float64" ∧
    (UnmarshalJSON hexCodec emptyVault (.object [("note", .number "1e400")])).1 ≠
      .error "could not find var: id" := by
  refine ⟨by decide, ⟨?_, ?_, ?_⟩, ?_, ?_⟩
  · intro j h; simp [List.lookup] at h
  · intro j h; simp [List.lookup] at h
  · intro j h; simp [List.lookup] at h
  · set_option maxRecDepth 100000 in decide
  · set_option maxRecDepth 100000 in decide

/-- C8 (amended): for every JSON object that json.Unmarshal decodes without error
(no number in it is out of the range of float64) in which one of the keys id,
enableSimpleSigner, indexMapper is absent and the keys that are present have
well-shaped values, UnmarshalJSON returns the error "could not find var: <key>",
where <key> is the first absent key in the order id, enableSimpleSigner,
indexMapper. -/
theorem unmarshalJSON_names_first_absent_key (U : UuidCodec) (vault : KeyVault)
    (fields : List (String × JValue)) (key : String)
    (hdec : decodeObject (.object fields) = .ok fields)
    (habs : firstAbsent fields = some key) (hshape : WellShaped U fields) :
    (UnmarshalJSON U vault (.object fields)).1 = .error ("could not find var: " ++ key) := by
  obtain ⟨hid, hflag, _⟩ := hshape
  simp only [firstAbsent, requiredKeys] at habs
  cases h1 : fields.lookup "id" with
  | none =>
    simp [List.find?, h1] at habs
    subst habs
    simp only [UnmarshalJSON, hdec, h1]
    decide
  | some j1 =>
    obtain ⟨str, rfl, hparse⟩ := wellShapedId_string (hid j1 h1)
    cases h2 : fields.lookup "enableSimpleSigner" with
    | none =>
      simp [List.find?, h1, h2] at habs
      subst habs
      simp only [UnmarshalJSON, hdec, h1, hparse, unmarshalSignerField, h2]
      decide
    | some j2 =>
      obtain ⟨b, rfl⟩ := wellShapedFlag_bool (hflag j2 h2)
      cases h3 : fields.lookup "indexMapper" with
      | none =>
        simp [List.find?, h1, h2, h3] at habs
        subst habs
        simp only [UnmarshalJSON, hdec, h1, hparse, unmarshalSignerField, h2,
          unmarshalIndexField, h3]
        decide
      | some j3 => simp [List.find?, h1, h2, h3] at habs

/-- C8 (amended), at an example: the keys enableSimpleSigner and indexMapper are
both absent and the object holds a number within range; the error names
enableSimpleSigner. -/
theorem unmarshalJSON_names_first_absent_key_witness :
    (UnmarshalJSON hexCodec zeroVault
      (.object [("id", .string "00000000-0000-0000-0000-00000000000a"),
        ("version", .number "1.5e2")])).1 =
      .error "could not find var: enableSimpleSigner" :=
  unmarshalJSON_names_first_absent_key hexCodec zeroVault
    [("id", .string "00000000-0000-0000-0000-00000000000a"), ("version", .number "1.5e2")]
    "enableSimpleSigner" (decodeObject_of_fit (by decide)) (by decide)
    ⟨fun j h => by
        obtain rfl : JValue.string "00000000-0000-0000-0000-00000000000a" = j := by
          simpa [List.lookup] using h
        show (hexCodec.Parse "00000000-0000-0000-0000-00000000000a").2 = none
        decide,
      fun j h => by simp [List.lookup] at h,
      fun j h => by simp [List.lookup] at h⟩

/-- C9, on the code: on objects that hold all three keys, a value of the wrong
dynamic type ends UnmarshalJSON in a panic of the type assertion (id a number,
enableSimpleSigner a string, indexMapper null, an entry of indexMapper a number),
while a string that is not a UUID is answered with the error of uuid.Parse. -/
theorem unmarshalJSON_wrong_type_panics :
    (UnmarshalJSON hexCodec emptyVault (.object [("id", .number "5"),
      ("enableSimpleSigner", .bool true), ("indexMapper", .object [])])).1 =
      .panic "interface conversion: interface {} is float64, not string" ∧
    (UnmarshalJSON hexCodec emptyVault
      (.object [("id", .string "00000000-0000-0000-0000-00000000000a"),
        ("enableSimpleSigner", .string "yes"), ("indexMapper", .object [])])).1 =
      .panic "interface conversion: interface {} is string, not bool" ∧
    (UnmarshalJSON hexCodec emptyVault
      (.object [("id", .string "00000000-0000-0000-0000-00000000000a"),
        ("enableSimpleSigner", .bool true), ("indexMapper", .null)])).1 =
      .panic "interface conversion: interface {} is nil, not map[string]interface {}" ∧
    (UnmarshalJSON hexCodec emptyVault
      (.object [("id", .string "00000000-0000-0000-0000-00000000000a"),
        ("enableSimpleSigner", .bool true),
        ("indexMapper", .object [("a", .number "7")])])).1 =
      .panic "interface conversion: interface {} is float64, not string" ∧
    (UnmarshalJSON hexCodec emptyVault (.object [("id", .string "not-a-uuid"),
      ("enableSimpleSigner", .bool true), ("indexMapper", .object [])])).1 =
      .error "invalid UUID length: 10" := by
  decide

theorem lookup_marshalled_entries (U : UuidCodec) (name : String)
    (l : List (Sigma fun _ : String => UUID)) :
    (l.map fun e => (e.1, JValue.string (U.MarshalText e.2))).lookup name =
      (l.dlookup name).map fun id => JValue.string (U.MarshalText id) := by
  induction l with
  | nil => rfl
  | cons e l ih =>
    obtain ⟨k, u⟩ := e
    by_cases hk : k = name
    · subst hk
      simp [List.lookup, List.dlookup_cons_eq]
    · have hne : (name == k) = false := by
        simpa using fun h : name = k => hk h.symm
      have hd : List.dlookup name (⟨k, u⟩ :: l) = List.dlookup name l :=
        List.dlookup_cons_ne l ⟨k, u⟩ (fun h : name = k => hk h.symm)
      simp only [List.map_cons, List.lookup, hne, ih, hd]

/-- C10 as stated fails for a vault whose index is the nil map (the zero value
of the struct): the value MarshalJSON gives the key indexMapper is null, not an
object. -/
theorem marshalJSON_nil_index_is_null :
    zeroVault.indexMapper = none ∧
    jsonField (MarshalJSON hexCodec zeroVault) "indexMapper" = some .null ∧
    ¬ ∃ entries, jsonField (MarshalJSON hexCodec zeroVault) "indexMapper"
      = some (.object entries) := by
  refine ⟨rfl, rfl, ?_⟩
  rintro ⟨entries, h⟩
  have h2 : some JValue.null = some (JValue.object entries) := h
  cases h2

/-- C10 (amended): for every vault, MarshalJSON produces a JSON object whose keys
are exactly enableSimpleSigner, id, indexMapper, with id the text of the vault id,
enableSimpleSigner the flag as a boolean, and indexMapper an object that maps each
wallet name to the text of its id when the index is initialised, and null when the
index is the nil map; two vaults that agree on these three fields (whatever their
master keys) serialize to the same record. -/
theorem marshalJSON_record (U : UuidCodec) (v : KeyVault) :
    (∃ idx, MarshalJSON U v = .object [("enableSimpleSigner", .bool v.enableSimpleSigner),
        ("id", .string (U.MarshalText v.id)), ("indexMapper", idx)] ∧
      (v.indexMapper = none → idx = .null) ∧
      (∀ m, v.indexMapper = some m → ∃ entries, idx = .object entries ∧
        entries.map Prod.fst = m.keys ∧
        ∀ name, entries.lookup name =
          (m.lookup name).map fun id => JValue.string (U.MarshalText id))) ∧
    (∀ v2 : KeyVault, v2.id = v.id → v2.enableSimpleSigner = v.enableSimpleSigner →
      v2.indexMapper = v.indexMapper → MarshalJSON U v2 = MarshalJSON U v) := by
  refine ⟨⟨marshalIndex U v.indexMapper, rfl, ?_, ?_⟩, ?_⟩
  · intro h
    rw [h]
    rfl
  · intro m h
    rw [h]
    refine ⟨_, rfl, ?_, ?_⟩
    · simp [AList.keys, List.keys, List.map_map, Function.comp_def]
    · intro name
      exact lookup_marshalled_entries U name m.entries
  · intro v2 h1 h2 h3
    simp only [MarshalJSON, h1, h2, h3]

/-- C10 (amended), at an example: a vault that differs from `vaultA` in its
master key only serializes to the same record. -/
theorem marshalJSON_record_witness :
    MarshalJSON hexCodec { vaultA with key := { exampleKey with privKey := 43 } } =
      MarshalJSON hexCodec vaultA :=
  (marshalJSON_record hexCodec vaultA).2 { vaultA with key := { exampleKey with privKey := 43 } }
    rfl rfl rfl

/-! ## Decimal text of a number -/

theorem digitChar_isDigit : ∀ d, d < 10 → (Nat.digitChar d).isDigit = true := by decide

theorem toDigitsCore_isDigit (fuel : Nat) : ∀ (n : Nat) (acc : List Char),
    (∀ c ∈ acc, c.isDigit = true) → ∀ c ∈ Nat.toDigitsCore 10 fuel n acc, c.isDigit = true := by
  induction fuel with
  | zero => intro n acc h; simpa [Nat.toDigitsCore] using h
  | succ f ih =>
    intro n acc h
    have hacc : ∀ c ∈ Nat.digitChar (n % 10) :: acc, c.isDigit = true := by
      intro c hc
      rcases List.mem_cons.1 hc with rfl | hc
      · exact digitChar_isDigit _ (Nat.mod_lt _ (by decide))
      · exact h c hc
    simp only [Nat.toDigitsCore]
    split
    · exact hacc
    · exact ih _ _ hacc

theorem toDigits_isDigit (n : Nat) : ∀ c ∈ Nat.toDigits 10 n, c.isDigit = true :=
  toDigitsCore_isDigit _ _ _ (by simp)

theorem toDigitsCore_length_ge (fuel : Nat) : ∀ (n : Nat) (acc : List Char),
    acc.length ≤ (Nat.toDigitsCore 10 fuel n acc).length := by
  induction fuel with
  | zero => intro n acc; simp [Nat.toDigitsCore]
  | succ f ih =>
    intro n acc
    simp only [Nat.toDigitsCore]
    split
    · simp
    · exact le_trans (by simp) (ih _ _)

theorem toDigitsCore_step (f n : Nat) (acc : List Char) (h : n / 10 ≠ 0) :
    Nat.toDigitsCore 10 (f + 1) n acc =
      Nat.toDigitsCore 10 f (n / 10) (Nat.digitChar (n % 10) :: acc) := by
  simp [Nat.toDigitsCore, h]

theorem toDigitsCore_length_gt (f n : Nat) (acc : List Char) :
    acc.length < (Nat.toDigitsCore 10 (f + 1) n acc).length := by
  simp only [Nat.toDigitsCore]
  split
  · simp
  · exact lt_of_lt_of_le (by simp) (toDigitsCore_length_ge _ _ _)

theorem toDigits_length_of_ge (n : Nat) (h : 1000 ≤ n) : 3 < (Nat.toDigits 10 n).length := by
  obtain ⟨f, rfl⟩ : ∃ f, n = f + 4 := ⟨n - 4, by omega⟩
  have h1 : (f + 4) / 10 ≠ 0 := by omega
  have h2 : (f + 4) / 10 / 10 ≠ 0 := by omega
  have h3 : (f + 4) / 10 / 10 / 10 ≠ 0 := by omega
  unfold Nat.toDigits
  rw [toDigitsCore_step _ _ _ h1, toDigitsCore_step _ _ _ h2, toDigitsCore_step _ _ _ h3]
  have := toDigitsCore_length_gt (f + 1) ((f + 4) / 10 / 10 / 10)
    [((f + 4) / 10 / 10 % 10).digitChar, ((f + 4) / 10 % 10).digitChar, ((f + 4) % 10).digitChar]
  simpa using this

theorem walletPath_data (k : Nat) : (walletPath k).data = '/' :: Nat.toDigits 10 k := by
  simp [walletPath, toString, Nat.repr, String.data_append, List.asString]

theorem walletPath_hasLongSegment (k : Nat) (h : 1000 ≤ k) : HasLongSegment (walletPath k) :=
  ⟨['/'], Nat.toDigits 10 k, [], by simp [walletPath_data], toDigits_length_of_ge k h,
    toDigits_isDigit k⟩

/-! ## The path grammar -/

theorem validateRelativePath_cons {p : String} {c : Char} {cs : List Char}
    (h : p.data = c :: cs) :
    validateRelativePath p = if c = '/' then validFrom 0 cs else false := by
  unfold validateRelativePath
  rw [h]
  split
  · rename_i heq
    simp only [List.cons.injEq] at heq
    simp [heq.1, heq.2]
  · rename_i hne
    by_cases hc : c = '/'
    · exact absurd (by rw [hc]) (hne cs)
    · simp [hc]

theorem validateRelativePath_nil {p : String} (h : p.data = []) :
    validateRelativePath p = false := by
  unfold validateRelativePath
  rw [h]

theorem isDigit_ne_slash {c : Char} (h : c.isDigit = true) : c ≠ '/' := by
  rintro rfl
  exact absurd h (by decide)

theorem validFrom_digits_overflow : ∀ (ds : List Char) (n : Nat) (rest : List Char),
    (∀ c ∈ ds, c.isDigit = true) → n ≤ 3 → 3 < n + ds.length →
    validFrom n (ds ++ rest) = false := by
  intro ds
  induction ds with
  | nil => intro n rest _ h1 h2; simp at h2; omega
  | cons c cs ih =>
    intro n rest hd h1 h2
    have hc : c.isDigit = true := hd c (List.mem_cons_self _ _)
    by_cases hn : n < 3
    · have hrec := ih (n + 1) rest (fun x hx => hd x (List.mem_cons_of_mem _ hx)) (by omega)
        (by simp at h2; omega)
      simp [validFrom, isDigit_ne_slash hc, hc, hrec]
    · simp [validFrom, isDigit_ne_slash hc, hc, hn]

theorem validFrom_long_run : ∀ (before : List Char) (n : Nat) (ds rest : List Char),
    (∀ c ∈ ds, c.isDigit = true) → 3 < ds.length → n ≤ 3 →
    validFrom n (before ++ ds ++ rest) = false := by
  intro before
  induction before with
  | nil =>
    intro n ds rest hd hl hn
    exact validFrom_digits_overflow ds n rest hd hn (by omega)
  | cons c bs ih =>
    intro n ds rest hd hl hn
    have h0 := ih 0 ds rest hd hl (by omega)
    simp only [List.append_assoc] at h0
    by_cases hc : c = '/'
    · simp [validFrom, hc, h0]
    · by_cases hdig : c.isDigit = true
      · by_cases hlt : n < 3
        · have h1 := ih (n + 1) ds rest hd hl (by omega)
          simp only [List.append_assoc] at h1
          simp [validFrom, hc, hdig, h1]
        · simp [validFrom, hc, hdig, hlt]
      · simp [validFrom, hc, hdig]

/-- A path with a run of more than 3 digits fails the grammar. -/
theorem validateRelativePath_long_segment (p : String) (h : HasLongSegment p) :
    validateRelativePath p = false := by
  obtain ⟨before, ds, rest, hdata, hlen, hdig⟩ := h
  cases before with
  | nil =>
    cases ds with
    | nil => simp at hlen
    | cons c cs =>
      have hp : p.data = c :: (cs ++ rest) := by simpa using hdata
      rw [validateRelativePath_cons hp]
      simp [isDigit_ne_slash (hdig c (List.mem_cons_self _ _))]
  | cons b bs =>
    have hp : p.data = b :: (bs ++ ds ++ rest) := by simpa using hdata
    rw [validateRelativePath_cons hp]
    by_cases hb : b = '/'
    · rw [if_pos hb]
      exact validFrom_long_run bs 0 ds rest hdig hlen (by omega)
    · rw [if_neg hb]

theorem derive_rejects_long_segment (K : KeyDerivation) (fresh : UUID) (key : HDKey)
    (p : String) (h : HasLongSegment p) : Derive K fresh key p = .error invalidRelativePath := by
  simp [Derive, validateRelativePath_long_segment p h]

/-! ## The options -/

/-- C16, on the code: EnableSimpleSigner(val) leaves encryptor, password, storage
and seed unchanged and returns the options, but it sets the flag to true whatever
`val` is; in particular EnableSimpleSigner(false) on options whose flag is off
turns the flag on. -/
theorem enableSimpleSigner_ignores_val {Enc Sto : Type} (options : PortfolioOptions Enc Sto)
    (val : Bool) :
    (options.EnableSimpleSigner val).enableSimpleSigner = true ∧
    (options.EnableSimpleSigner val).encryptor = options.encryptor ∧
    (options.EnableSimpleSigner val).password = options.password ∧
    (options.EnableSimpleSigner val).storage = options.storage ∧
    (options.EnableSimpleSigner val).seed = options.seed ∧
    (({ encryptor := none, password := [], storage := none, enableSimpleSigner := false,
        seed := [] } : PortfolioOptions Enc Sto).EnableSimpleSigner false).enableSimpleSigner
      ≠ false := by
  refine ⟨rfl, rfl, rfl, rfl, rfl, ?_⟩
  simp [PortfolioOptions.EnableSimpleSigner]

/-! ## The storage calls of CreateWallet -/

/-- C17: when the derivation succeeds, the storage write calls of one
CreateWallet(name) are a prefix of [SaveWallet(w), SavePortfolio(v)] and stop at
the first call that fails: after a failing SaveWallet there is no SavePortfolio;
after a failing SavePortfolio there is no further call, so the saved wallet is
not undone; and the vault passed to SavePortfolio has `name -> w.id` in its
index. SaveWallet is called whenever the index is initialised (on the nil map the
call panics before any storage call). -/
theorem createWallet_storage_calls {σ : Type} (St : Storage σ)
    (Derive : HDKey → String → Except Error HDKey) (fresh : UUID) (v : KeyVault) (s : σ)
    (name : String) (key : HDKey)
    (hd : Derive v.key (walletPath (mapLen v.indexMapper)) = .ok key) :
    WritesStopAtFirstFailure St s v name
      (NewHDWallet fresh name key (walletPath (mapLen v.indexMapper)))
      (CreateWallet St Derive fresh v s name) := by
  unfold WritesStopAtFirstFailure
  cases hm : v.indexMapper with
  | none =>
    left
    rw [createWallet_nil_index St Derive fresh v s name hd hm]
    exact ⟨rfl, rfl, rfl⟩
  | some m =>
    right
    rcases hs : St.SaveWallet s (NewHDWallet fresh name key (walletPath (mapLen v.indexMapper)))
      with ⟨s1, _ | err⟩
    · right
      rcases hp : St.SavePortfolio s1 (registered v m name fresh) with ⟨s2, _ | err⟩
      · have hc := createWallet_success St Derive fresh v s name hd hm hs hp
        rw [hm] at hc hs
        refine ⟨registered v m name fresh, none, ?_, mapGet_registered_self v m name fresh, ?_, ?_⟩
        · rw [hc]; rfl
        · rw [hc]
        · rw [hc, hs]; simp only; rw [hp]
      · have hc := createWallet_savePortfolio_error St Derive fresh v s name hd hm hs hp
        rw [hm] at hc hs
        refine ⟨registered v m name fresh, some err, ?_, mapGet_registered_self v m name fresh,
          ?_, ?_⟩
        · rw [hc]; rfl
        · rw [hc]
        · rw [hc, hs]; simp only; rw [hp]
    · left
      have hc := createWallet_saveWallet_error St Derive fresh v s name hd hm hs
      rw [hm] at hc hs
      refine ⟨err, ?_, ?_, ?_⟩
      · rw [hc]; rfl
      · rw [hc]
      · rw [hc, hs]

/-- C17, at an example: SavePortfolio fails while "b" is created in `vaultA`. -/
theorem createWallet_storage_calls_witness :
    WritesStopAtFirstFailure (memStorage none (some "read-only")) [] vaultA "b"
      (NewHDWallet 5 "b" { exampleKey with path := "m/12381/3600/1" } "/1")
      (CreateWallet (memStorage none (some "read-only")) deriveAny 5 vaultA [] "b") :=
  createWallet_storage_calls (memStorage none (some "read-only")) deriveAny 5 vaultA []
    "b" { exampleKey with path := "m/12381/3600/1" } rfl

/-! ## Derivation failures and the size of the index -/

theorem mapLen_registered_le (v : KeyVault) (m : AList (fun _ : String => UUID))
    (name : String) (fresh : UUID) :
    mapLen (registered v m name fresh).indexMapper ≤ m.entries.length + 1 := by
  simp only [registered, mapLen, AList.insert_entries, List.length_cons]
  exact Nat.succ_le_succ (List.kerase_sublist name m.entries).length_le

theorem mapLen_rollback_le (v : KeyVault) (m : AList (fun _ : String => UUID))
    (name : String) (fresh : UUID) :
    mapLen (reset (registered v m name fresh) name).indexMapper ≤ m.entries.length := by
  simp only [reset, registered, mapDelete, mapLen, AList.erase, AList.insert_entries]
  have hk : List.kerase name (⟨name, fresh⟩ :: List.kerase name m.entries :
      List (Sigma fun _ : String => UUID)) = List.kerase name m.entries :=
    List.kerase_cons_eq rfl
  rw [hk]
  exact (List.kerase_sublist name m.entries).length_le

theorem mapLen_createWallet_le {σ : Type} (St : Storage σ)
    (Derive : HDKey → String → Except Error HDKey) (fresh : UUID) (v : KeyVault) (s : σ)
    (name : String) :
    mapLen (CreateWallet St Derive fresh v s name).vault.indexMapper ≤
      mapLen v.indexMapper + 1 := by
  have hp := createWallet_path St Derive fresh v s name
  generalize CreateWallet St Derive fresh v s name = out at hp ⊢
  cases hp with
  | deriveError err => exact Nat.le_succ _
  | nilIndex => exact Nat.le_succ _
  | saveWalletError key m s1 err hm hs =>
    rw [hm]; exact le_trans (mapLen_rollback_le v m name fresh) (Nat.le_succ _)
  | savePortfolioError key m s1 s2 err hm hs hp =>
    rw [hm]; exact le_trans (mapLen_rollback_le v m name fresh) (Nat.le_succ _)
  | success key m s1 s2 hm hs hp =>
    rw [hm]; exact mapLen_registered_le v m name fresh

/-- C20: when the derivation of the wallet path fails, CreateWallet returns that
error with no wallet, leaves the vault (so every index entry) as it was and
makes no SaveWallet or SavePortfolio call. With a Derive that rejects every path
that has a run of more than 3 digits, CreateWallet(name) fails with the
invalid-path error for every name on a vault whose index holds 1000 or more
names, and no sequence of CreateWallet calls takes an index of at most 1000
names beyond 1000 names. -/
theorem createWallet_derive_failure {σ : Type} (St : Storage σ)
    (Derive : HDKey → String → Except Error HDKey) :
    (∀ (fresh : UUID) (v : KeyVault) (s : σ) (name : String) (err : Error),
      Derive v.key (walletPath (mapLen v.indexMapper)) = .error err →
      (CreateWallet St Derive fresh v s name).ret = .error err ∧
      (CreateWallet St Derive fresh v s name).vault = v ∧
      (CreateWallet St Derive fresh v s name).store = s ∧
      storageWrites (CreateWallet St Derive fresh v s name).trace = []) ∧
    ((∀ key p, HasLongSegment p → Derive key p = .error invalidRelativePath) →
      (∀ (fresh : UUID) (v : KeyVault) (s : σ) (name : String),
        1000 ≤ mapLen v.indexMapper →
        (CreateWallet St Derive fresh v s name).ret = .error invalidRelativePath ∧
        (CreateWallet St Derive fresh v s name).vault = v) ∧
      (∀ (w : World σ) (calls : List (String × UUID)), mapLen w.vault.indexMapper ≤ 1000 →
        mapLen (createWallets St Derive w calls).vault.indexMapper ≤ 1000)) := by
  have hfail : ∀ (fresh : UUID) (v : KeyVault) (s : σ) (name : String) (err : Error),
      Derive v.key (walletPath (mapLen v.indexMapper)) = .error err →
      (CreateWallet St Derive fresh v s name).ret = .error err ∧
      (CreateWallet St Derive fresh v s name).vault = v ∧
      (CreateWallet St Derive fresh v s name).store = s ∧
      storageWrites (CreateWallet St Derive fresh v s name).trace = [] := by
    intro fresh v s name err hd
    rw [createWallet_derive_error St Derive fresh v s name hd]
    exact ⟨rfl, rfl, rfl, rfl⟩
  refine ⟨hfail, fun hrej => ?_⟩
  have hfull : ∀ (fresh : UUID) (v : KeyVault) (s : σ) (name : String),
      1000 ≤ mapLen v.indexMapper →
      (CreateWallet St Derive fresh v s name).ret = .error invalidRelativePath ∧
      (CreateWallet St Derive fresh v s name).vault = v := by
    intro fresh v s name hlen
    have h := hfail fresh v s name invalidRelativePath
      (hrej _ _ (walletPath_hasLongSegment _ hlen))
    exact ⟨h.1, h.2.1⟩
  refine ⟨hfull, ?_⟩
  intro w calls
  induction calls generalizing w with
  | nil => intro h; exact h
  | cons c rest ih =>
    intro h
    apply ih
    simp only [createStep]
    by_cases hlt : mapLen w.vault.indexMapper < 1000
    · exact le_trans (mapLen_createWallet_le St Derive c.2 w.vault w.store c.1) hlt
    · rw [(hfull c.2 w.vault w.store c.1 (by omega)).2]
      exact h

theorem mapLen_fullVault : mapLen fullVault.indexMapper = 1000 := by
  simp [mapLen, fullVault, fullIndex]

/-- C20, at an example: on a vault whose index holds 1000 names, the Derive of the
spec rejects the path /1000, so CreateWallet fails with the invalid-path error
and leaves the vault as it was; a run of further CreateWallet calls keeps the
index at no more than 1000 names. -/
theorem createWallet_derive_failure_witness :
    Derive toyDerivation 9 fullVault.key (walletPath (mapLen fullVault.indexMapper)) =
      .error "invalid relative path. Example: /1/2/3" ∧
    (CreateWallet (memStorage none none) (Derive toyDerivation 9) 5 fullVault [] "one more").ret
      = .error "invalid relative path. Example: /1/2/3" ∧
    (CreateWallet (memStorage none none) (Derive toyDerivation 9) 5 fullVault [] "one more").vault
      = fullVault ∧
    storageWrites (CreateWallet (memStorage none none) (Derive toyDerivation 9) 5 fullVault []
      "one more").trace = [] ∧
    mapLen (createWallets (memStorage none none) (Derive toyDerivation 9)
      ⟨fullVault, [], []⟩ [("x", 11), ("y", 12)]).vault.indexMapper ≤ 1000 :=
  have hfails : Derive toyDerivation 9 fullVault.key
      (walletPath (mapLen fullVault.indexMapper)) = .error invalidRelativePath :=
    derive_rejects_long_segment toyDerivation 9 _ _
      (walletPath_hasLongSegment _ (Nat.le_of_eq mapLen_fullVault.symm))
  have h := createWallet_derive_failure (memStorage none none) (Derive toyDerivation 9)
  have hone := h.1 5 fullVault [] "one more" invalidRelativePath hfails
  have hfull := h.2 (derive_rejects_long_segment toyDerivation 9)
  ⟨hfails, (hfull.1 5 fullVault [] "one more" (Nat.le_of_eq mapLen_fullVault.symm)).1,
    hone.2.1, hone.2.2.2,
    hfull.2 ⟨fullVault, [], []⟩ [("x", 11), ("y", 12)] (Nat.le_of_eq mapLen_fullVault)⟩

/-! ## Wallets -/

theorem walletsStep_closed {σ : Type} (St : Storage σ) (p : Producer σ) (name : String) :
    (walletsStep St p name).ch.closed = p.ch.closed := by
  unfold walletsStep
  split
  · rfl
  · simp only
    split
    · split <;> rfl
    · rfl

theorem wallets_foldl_closed {σ : Type} (St : Storage σ) (order : List String) :
    ∀ p : Producer σ, (order.foldl (walletsStep St) p).ch.closed = p.ch.closed := by
  induction order with
  | nil => intro p; rfl
  | cons n rest ih => intro p; rw [List.foldl_cons, ih, walletsStep_closed]

/-- One turn of the loop, with room in the buffer, on a lookup that succeeds. -/
theorem walletsStep_ok {σ : Type} (St : Storage σ) (p : Producer σ) (name : String)
    (w : Wallet) (s1 : σ) (hb : p.blocked = false) (hroom : p.ch.buf.length < p.ch.cap)
    (ho : St.OpenWallet p.store (idOf p.vault name) = (s1, .ok w)) :
    walletsStep St p name =
      { ch := { p.ch with buf := p.ch.buf ++ [w] }, vault := p.vault, store := s1,
        trace := p.trace ++ [.OpenWallet (idOf p.vault name)], blocked := false } := by
  simp only [idOf] at ho
  simp [walletsStep, hb, WalletByID, ho, Ret.ofExcept, hroom, idOf]

/-- One turn of the loop on a lookup that fails: the name is skipped. -/
theorem walletsStep_error {σ : Type} (St : Storage σ) (p : Producer σ) (name : String)
    (e : Error) (s1 : σ) (hb : p.blocked = false)
    (ho : St.OpenWallet p.store (idOf p.vault name) = (s1, .error e)) :
    walletsStep St p name =
      { ch := p.ch, vault := p.vault, store := s1,
        trace := p.trace ++ [.OpenWallet (idOf p.vault name)], blocked := false } := by
  simp only [idOf] at ho
  simp [walletsStep, hb, WalletByID, ho, Ret.ofExcept, idOf]

theorem wallets_foldl {σ : Type} (St : Storage σ) (order : List String) :
    ∀ p : Producer σ, p.blocked = false → p.ch.buf.length + order.length ≤ p.ch.cap →
      (order.foldl (walletsStep St) p).blocked = false ∧
      (order.foldl (walletsStep St) p).vault = p.vault ∧
      (order.foldl (walletsStep St) p).ch.buf =
        p.ch.buf ++ resolvedWallets St p.store (order.map (idOf p.vault)) ∧
      (order.foldl (walletsStep St) p).trace =
        p.trace ++ order.map fun n => Event.OpenWallet (idOf p.vault n) := by
  induction order with
  | nil => intro p hb _; simp [resolvedWallets, hb]
  | cons n rest ih =>
    intro p hb hroom
    simp only [List.length_cons] at hroom
    rcases ho : St.OpenWallet p.store (idOf p.vault n) with ⟨s1, e | w⟩
    · have hstep := walletsStep_error St p n e s1 hb ho
      have := ih (walletsStep St p n) (by rw [hstep]) (by rw [hstep]; simp only; omega)
      rw [hstep] at this
      simp only [List.foldl_cons, hstep, List.map_cons, resolvedWallets, ho]
      simpa using this
    · have hstep := walletsStep_ok St p n w s1 hb (by omega) ho
      have := ih (walletsStep St p n) (by rw [hstep])
        (by rw [hstep]; simp only [List.length_append, List.length_singleton]; omega)
      rw [hstep] at this
      simp only [List.foldl_cons, hstep, List.map_cons, resolvedWallets, ho]
      simpa using this

theorem resolvedWallets_of_reads {σ : Type} (St : Storage σ) (hread : OpenOnlyReads St) (s : σ) :
    ∀ ids : List UUID,
      resolvedWallets St s ids = ids.filterMap fun id => okWallet (St.OpenWallet s id).2 := by
  intro ids
  induction ids with
  | nil => rfl
  | cons id rest ih =>
    have h1 := hread s id
    rcases ho : St.OpenWallet s id with ⟨s1, e | w⟩
    · rw [ho] at h1
      simp only at h1
      subst h1
      simp [resolvedWallets, ho, okWallet, ih]
    · rw [ho] at h1
      simp only at h1
      subst h1
      simp [resolvedWallets, ho, okWallet, ih]

theorem mapKeys_length (m : IndexMapper) : (mapKeys m).length = mapLen m := by
  cases m with
  | none => rfl
  | some m => simp [mapKeys, mapLen, AList.keys, List.keys]

theorem mem_mapKeys_iff (m : IndexMapper) (n : String) :
    n ∈ mapKeys m ↔ ∃ id, mapGet m n = some id := by
  cases m with
  | none => simp [mapKeys, mapGet]
  | some m =>
    simp only [mapKeys, mapGet]
    rw [← AList.mem_keys, ← AList.lookup_isSome, Option.isSome_iff_exists]

/-- C11: for every vault whose index holds at most 1024 names and every storage,
whatever the order in which the names are visited, the producer of Wallets() is
never stuck, makes one OpenWallet call per name and delivers exactly the wallets
of the lookups that succeed, one per name whose id resolves and none for a name
whose lookup fails; the vault is not modified. With a storage whose OpenWallet
only reads, the wallets delivered are exactly the wallets OpenWallet returns for
the ids of the index. -/
theorem wallets_delivers_resolved {σ : Type} (St : Storage σ) (v : KeyVault) (s : σ)
    (order : List String) (hperm : order.Perm (mapKeys v.indexMapper))
    (hsize : mapLen v.indexMapper ≤ 1024) :
    (Wallets St v s order).blocked = false ∧
    (Wallets St v s order).vault = v ∧
    (Wallets St v s order).trace = order.map (fun n => Event.OpenWallet (idOf v n)) ∧
    (Wallets St v s order).ch.buf = resolvedWallets St s (order.map (idOf v)) ∧
    (OpenOnlyReads St →
      (Wallets St v s order).ch.buf =
        order.filterMap (fun n => okWallet (St.OpenWallet s (idOf v n)).2) ∧
      ∀ w, w ∈ (Wallets St v s order).ch.buf ↔
        ∃ n id, mapGet v.indexMapper n = some id ∧ (St.OpenWallet s id).2 = .ok w) := by
  have hlen : order.length ≤ 1024 := by
    rw [hperm.length_eq, mapKeys_length]; exact hsize
  have h := wallets_foldl St order
    { ch := makeChan 1024, vault := v, store := s, trace := [], blocked := false } rfl
    (by simpa [makeChan] using hlen)
  simp only [makeChan, List.nil_append] at h
  refine ⟨h.1, h.2.1, h.2.2.2, h.2.2.1, ?_⟩
  intro hread
  have hbuf : (Wallets St v s order).ch.buf =
      order.filterMap (fun n => okWallet (St.OpenWallet s (idOf v n)).2) := by
    have := h.2.2.1
    simp only [Wallets, makeChan]
    rw [this, resolvedWallets_of_reads St hread, List.filterMap_map]
    rfl
  refine ⟨hbuf, fun w => ?_⟩
  rw [hbuf, List.mem_filterMap]
  constructor
  · rintro ⟨n, hn, hw⟩
    obtain ⟨id, hid⟩ := (mem_mapKeys_iff _ _).1 (hperm.mem_iff.1 hn)
    refine ⟨n, id, hid, ?_⟩
    have hidof : idOf v n = id := by simp [idOf, hid]
    rw [hidof] at hw
    cases hres : (St.OpenWallet s id).2 with
    | error e => rw [hres] at hw; simp [okWallet] at hw
    | ok w2 => rw [hres] at hw; simp only [okWallet, Option.some.injEq] at hw; rw [hw]
  · rintro ⟨n, id, hid, hw⟩
    refine ⟨n, hperm.mem_iff.2 ((mem_mapKeys_iff _ _).2 ⟨id, hid⟩), ?_⟩
    have hidof : idOf v n = id := by simp [idOf, hid]
    rw [hidof, hw]
    rfl

/-- C11, at an example: the index holds "a" and "b", the storage resolves only the
id of "a"; exactly that wallet is delivered. -/
theorem wallets_delivers_resolved_witness :
    (Wallets (memStorage none none) vaultAB [walletTen] ["a", "b"]).ch.buf = [walletTen] :=
  (wallets_delivers_resolved (memStorage none none) vaultAB [walletTen] ["a", "b"]
    (List.Perm.swap "b" "a" []) (by decide)).2.2.2.1.trans (by decide)

/-- C18, on the code: the producer of Wallets() never closes the channel, whatever
the vault, the storage and the order of the names; a consumer that ranges over
the channel receives the resolved wallets and its loop does not end. At the
example, the one resolved wallet is received and the channel stays open. -/
theorem wallets_never_closes_channel {σ : Type} (St : Storage σ) (v : KeyVault) (s : σ)
    (order : List String) :
    (Wallets St v s order).ch.closed = false ∧
    (rangeOverChan (Wallets St v s order).ch).2 = false ∧
    rangeOverChan (Wallets (memStorage none none) vaultAB [walletTen] ["a", "b"]).ch =
      ([walletTen], false) := by
  have h : (Wallets St v s order).ch.closed = false := by
    simp only [Wallets, wallets_foldl_closed, makeChan]
  exact ⟨h, h, by decide⟩

/-! ## Round trip of the vault record -/

theorem firstOverflowFields_marshalled (U : UuidCodec) :
    ∀ l : List (Sigma fun _ : String => UUID),
      firstOverflowFields (l.map fun e => (e.1, JValue.string (U.MarshalText e.2))) = none := by
  intro l
  induction l with
  | nil => rfl
  | cons e rest ih => simp only [List.map_cons, firstOverflowFields, JValue.firstOverflow, ih]

/-- The record MarshalJSON writes holds no number, so json.Unmarshal decodes it. -/
theorem decodeObject_marshalJSON (U : UuidCodec) (v : KeyVault) :
    ∃ fields, MarshalJSON U v = .object fields ∧ decodeObject (.object fields) = .ok fields := by
  refine ⟨_, rfl, decodeObject_of_fit ?_⟩
  cases hm : v.indexMapper with
  | none => simp [firstOverflowFields, JValue.firstOverflow, marshalIndex]
  | some m =>
    simp [firstOverflowFields, JValue.firstOverflow, marshalIndex,
      firstOverflowFields_marshalled U m.entries]

theorem unmarshalIndex_marshalled (U : UuidCodec) :
    ∀ (l : List (Sigma fun _ : String => UUID)) (acc : AList (fun _ : String => UUID)),
      (∀ e ∈ l, ReadsBack U e.2) →
      unmarshalIndex U acc (l.map fun e => (e.1, JValue.string (U.MarshalText e.2))) =
        (.ok (), l.foldl (fun a e => a.insert e.1 e.2) acc) := by
  intro l
  induction l with
  | nil => intro acc _; rfl
  | cons e rest ih =>
    intro acc h
    have he : U.Parse (U.MarshalText e.2) = (e.2, none) := h e (List.mem_cons_self _ _)
    simp only [List.map_cons, unmarshalIndex, he, List.foldl_cons]
    exact ih _ fun x hx => h x (List.mem_cons_of_mem _ hx)

theorem lookup_foldl_insert (k : String) :
    ∀ (l : List (Sigma fun _ : String => UUID)) (acc : AList (fun _ : String => UUID)),
      l.NodupKeys →
      (l.foldl (fun a e => a.insert e.1 e.2) acc).lookup k =
        match l.dlookup k with
        | some id => some id
        | none => acc.lookup k := by
  intro l
  induction l with
  | nil => intro acc _; rfl
  | cons e rest ih =>
    intro acc hnd
    obtain ⟨name, id⟩ := e
    rw [List.nodupKeys_cons] at hnd
    rw [List.foldl_cons, ih _ hnd.2]
    by_cases hk : k = name
    · subst hk
      have hnone : List.dlookup k rest = none := List.dlookup_eq_none.2 hnd.1
      simp [hnone, List.dlookup_cons_eq]
    · have hd : List.dlookup k (⟨name, id⟩ :: rest) = List.dlookup k rest :=
        List.dlookup_cons_ne rest ⟨name, id⟩ hk
      rw [hd]
      cases List.dlookup k rest with
      | some x => rfl
      | none => simp [AList.lookup_insert_ne hk]

/-- C19: for every vault `v` whose index is initialised (possibly empty), with a
uuid library that reads back the text it writes for the ids of `v`, UnmarshalJSON
on the output of `v.MarshalJSON()` succeeds and yields a vault with the id, the
enableSimpleSigner flag and the index (same names, same ids) of `v`. -/
theorem unmarshalJSON_marshalJSON (U : UuidCodec) (receiver v : KeyVault)
    (m : AList (fun _ : String => UUID)) (hm : v.indexMapper = some m)
    (hid : ReadsBack U v.id) (hids : ∀ e ∈ m.entries, ReadsBack U e.2) :
    (UnmarshalJSON U receiver (MarshalJSON U v)).1 = .ok () ∧
    (UnmarshalJSON U receiver (MarshalJSON U v)).2.id = v.id ∧
    (UnmarshalJSON U receiver (MarshalJSON U v)).2.enableSimpleSigner = v.enableSimpleSigner ∧
    (∀ name, mapGet (UnmarshalJSON U receiver (MarshalJSON U v)).2.indexMapper name =
      mapGet v.indexMapper name) ∧
    (UnmarshalJSON U receiver (MarshalJSON U v)).2.key = receiver.key := by
  have hidx := unmarshalIndex_marshalled U m.entries ∅ hids
  have hid2 : U.Parse (U.MarshalText v.id) = (v.id, none) := hid
  have hrun : UnmarshalJSON U receiver (MarshalJSON U v) =
      (.ok (), { id := v.id, enableSimpleSigner := v.enableSimpleSigner,
                 indexMapper := some (m.entries.foldl (fun a e => a.insert e.1 e.2) ∅),
                 key := receiver.key }) := by
    obtain ⟨fields, hfields, hdec⟩ := decodeObject_marshalJSON U v
    simp only [UnmarshalJSON, hfields, hdec]
    simp only [MarshalJSON, JValue.object.injEq] at hfields
    subst hfields
    simp [List.lookup, hid2, unmarshalSignerField, unmarshalIndexField, marshalIndex, hm, hidx]
  rw [hrun]
  refine ⟨rfl, rfl, rfl, ?_, rfl⟩
  intro name
  have hl : m.lookup name = List.dlookup name m.entries := rfl
  simp only [mapGet, hm]
  rw [lookup_foldl_insert name m.entries ∅ m.nodupKeys, hl]
  cases List.dlookup name m.entries <;> rfl

/-- C19, at an example: the record of `vaultAB` is read back into the zero-value
vault. -/
theorem unmarshalJSON_marshalJSON_witness :
    (UnmarshalJSON hexCodec zeroVault (MarshalJSON hexCodec vaultAB)).1 = .ok () ∧
    mapGet (UnmarshalJSON hexCodec zeroVault (MarshalJSON hexCodec vaultAB)).2.indexMapper "b"
      = some 11 :=
  have h := unmarshalJSON_marshalJSON hexCodec zeroVault vaultAB
    ((AList.singleton "a" 10).insert "b" 11) rfl (by decide) (by decide)
  ⟨h.1, (h.2.2.2.1 "b").trans (by decide)⟩

/-! ## The grammar of Derive -/

theorem joinSegments_cons (seg : List Char) (segs : List (List Char)) :
    joinSegments (seg :: segs) = '/' :: (seg ++ joinSegments segs) := by
  simp [joinSegments, List.flatMap_cons]

/-- A run of digits that fits the group moves the count on. -/
theorem validFrom_digits : ∀ (ds : List Char) (n : Nat) (rest : List Char),
    (∀ c ∈ ds, c.isDigit = true) → n + ds.length ≤ 3 →
    validFrom n (ds ++ rest) = validFrom (n + ds.length) rest := by
  intro ds
  induction ds with
  | nil => intro n rest _ _; rfl
  | cons c cs ih =>
    intro n rest hd hlen
    have hc : c.isDigit = true := hd c (List.mem_cons_self _ _)
    simp only [List.length_cons] at hlen
    have hn : n < 3 := by omega
    have hrec := ih (n + 1) rest (fun x hx => hd x (List.mem_cons_of_mem _ hx)) (by omega)
    have hidx : n + (c :: cs).length = n + 1 + cs.length := by
      simp only [List.length_cons]; omega
    rw [hidx, ← hrec]
    simp [validFrom, isDigit_ne_slash hc, hc, hn]

theorem validFrom_joinSegments : ∀ (segs : List (List Char)) (n : Nat), 1 ≤ n →
    (∀ seg ∈ segs, IsSegment seg) → validFrom n (joinSegments segs) = true := by
  intro segs
  induction segs with
  | nil => intro n hn _; simp [joinSegments, validFrom, hn]
  | cons seg rest ih =>
    intro n hn hsegs
    obtain ⟨h1, h3, hdig⟩ := hsegs seg (List.mem_cons_self _ _)
    rw [joinSegments_cons]
    have hrun := validFrom_digits seg 0 (joinSegments rest) hdig (by omega)
    have hrest := ih (0 + seg.length) (by omega) fun x hx => hsegs x (List.mem_cons_of_mem _ hx)
    simp only [validFrom, if_true, hrun, hrest]
    simpa using hn

theorem validFrom_sound : ∀ (cs : List Char) (n : Nat), n ≤ 3 → validFrom n cs = true →
    ∃ (ds : List Char) (segs : List (List Char)), (∀ c ∈ ds, c.isDigit = true) ∧
      1 ≤ n + ds.length ∧ n + ds.length ≤ 3 ∧ (∀ seg ∈ segs, IsSegment seg) ∧
      cs = ds ++ joinSegments segs := by
  intro cs
  induction cs with
  | nil =>
    intro n hn h
    simp [validFrom] at h
    exact ⟨[], [], by simp, by simpa using h, by simpa using hn, by simp, by simp [joinSegments]⟩
  | cons c cs ih =>
    intro n hn h
    by_cases hc : c = '/'
    · simp [validFrom, hc] at h
      obtain ⟨ds, segs, hd, h1, h3, hsegs, hcs⟩ := ih 0 (by omega) h.2
      refine ⟨[], ds :: segs, by simp, by simpa using h.1, by simpa using hn, ?_, ?_⟩
      · intro seg hseg
        rcases List.mem_cons.1 hseg with rfl | hseg
        · exact ⟨by omega, by omega, hd⟩
        · exact hsegs seg hseg
      · rw [joinSegments_cons, hc, hcs]; rfl
    · by_cases hdig : c.isDigit = true
      · simp [validFrom, hc, hdig] at h
        obtain ⟨ds, segs, hd, h1, h3, hsegs, hcs⟩ := ih (n + 1) (by omega) h.2
        refine ⟨c :: ds, segs, ?_, by simp only [List.length_cons]; omega,
          by simp only [List.length_cons]; omega, hsegs, ?_⟩
        · intro x hx
          rcases List.mem_cons.1 hx with rfl | hx
          · exact hdig
          · exact hd x hx
        · rw [hcs]; rfl
      · simp [validFrom, hc, hdig] at h

/-- The executable validation agrees with the grammar of the spec. -/
theorem validateRelativePath_iff (p : String) :
    validateRelativePath p = true ↔ IsRelativePath p := by
  constructor
  · intro h
    cases hdata : p.data with
    | nil => rw [validateRelativePath_nil hdata] at h; cases h
    | cons c cs =>
      rw [validateRelativePath_cons hdata] at h
      by_cases hc : c = '/'
      · rw [if_pos hc] at h
        obtain ⟨ds, segs, hd, h1, h3, hsegs, hcs⟩ := validFrom_sound cs 0 (by omega) h
        refine ⟨ds :: segs, by simp, ?_, ?_⟩
        · intro seg hseg
          rcases List.mem_cons.1 hseg with rfl | hseg
          · exact ⟨by omega, by omega, hd⟩
          · exact hsegs seg hseg
        · rw [joinSegments_cons, ← hc, ← hcs]
          exact hdata
      · rw [if_neg hc] at h; cases h
  · rintro ⟨segs, hne, hsegs, hdata⟩
    cases segs with
    | nil => exact absurd rfl hne
    | cons seg rest =>
      rw [joinSegments_cons] at hdata
      rw [validateRelativePath_cons hdata, if_pos rfl]
      obtain ⟨h1, h3, hdig⟩ := hsegs seg (List.mem_cons_self _ _)
      rw [validFrom_digits seg 0 (joinSegments rest) hdig (by omega)]
      exact validFrom_joinSegments rest _ (by omega)
        fun x hx => hsegs x (List.mem_cons_of_mem _ hx)

/-- C12: for every key and every relative path `p` (the non-empty ones among
them), Derive(p) succeeds if and only if the whole of `p` is one or more groups of
`/` followed by 1 to 3 decimal digits; otherwise it fails with the error
"invalid relative path. Example: /1/2/3". So /0, /999 and /100/0 are accepted,
and /1000/0, 0/0, m/0/0, a path with a letter and a path with a blank are
rejected. -/
theorem derive_succeeds_iff_grammar (K : KeyDerivation) (fresh : UUID) (key : HDKey)
    (p : String) :
    ((∃ k, Derive K fresh key p = .ok k) ↔ IsRelativePath p) ∧
    (¬ IsRelativePath p →
      Derive K fresh key p = .error "invalid relative path. Example: /1/2/3") ∧
    ((∃ k, Derive K fresh key "/0" = .ok k) ∧ (∃ k, Derive K fresh key "/999" = .ok k) ∧
      (∃ k, Derive K fresh key "/100/0" = .ok k)) ∧
    (Derive K fresh key "/1000/0" = .error "invalid relative path. Example: /1/2/3" ∧
      Derive K fresh key "0/0" = .error "invalid relative path. Example: /1/2/3" ∧
      Derive K fresh key "m/0/0" = .error "invalid relative path. Example: /1/2/3" ∧
      Derive K fresh key "/1a" = .error "invalid relative path. Example: /1/2/3" ∧
      Derive K fresh key "/1 /2" = .error "invalid relative path. Example: /1/2/3") := by
  have hiff := validateRelativePath_iff p
  refine ⟨⟨?_, ?_⟩, ?_, ⟨?_, ?_, ?_⟩, ?_, ?_, ?_, ?_, ?_⟩
  · rintro ⟨k, hk⟩
    by_cases hv : validateRelativePath p = true
    · exact hiff.1 hv
    · simp [Derive, hv] at hk
  · intro h
    exact ⟨{ (pathSegments p).foldl (deriveStep K) key with id := fresh },
      by simp only [Derive, hiff.2 h, if_true]⟩
  · intro h
    have hv : validateRelativePath p = false := by
      cases hb : validateRelativePath p with
      | false => rfl
      | true => exact absurd (hiff.1 hb) h
    simp [Derive, hv, invalidRelativePath]
  all_goals first
    | exact ⟨_, rfl⟩
    | rfl

/-! ## The path of a derived key -/

theorem toString_data (i : Nat) : (toString i).data = Nat.toDigits 10 i := by
  simp [toString, Nat.repr, List.asString]

set_option maxRecDepth 100000 in
theorem decimal_below_thousand : ∀ i, i < 1000 →
    1 ≤ (Nat.toDigits 10 i).length ∧ (Nat.toDigits 10 i).length ≤ 3 ∧
      segValue 0 (Nat.toDigits 10 i) = i := by
  decide

theorem isSegment_decimal (i : Nat) (h : i < 1000) : IsSegment (toString i).data := by
  rw [toString_data]
  exact ⟨(decimal_below_thousand i h).1, (decimal_below_thousand i h).2.1, toDigits_isDigit i⟩

theorem segmentsFrom_digits : ∀ (ds cur rest : List Char),
    (∀ c ∈ ds, c.isDigit = true) →
    segmentsFrom cur (ds ++ rest) = segmentsFrom (cur ++ ds) rest := by
  intro ds
  induction ds with
  | nil => intro cur rest _; simp
  | cons c cs ih =>
    intro cur rest hd
    have hc : c ≠ '/' := isDigit_ne_slash (hd c (List.mem_cons_self _ _))
    have hrec := ih (cur ++ [c]) rest fun x hx => hd x (List.mem_cons_of_mem _ hx)
    simp only [List.append_assoc, List.singleton_append] at hrec
    rw [← hrec]
    simp [segmentsFrom, hc]

theorem segmentsFrom_joinSegments : ∀ (segs : List (List Char)) (cur : List Char),
    (∀ seg ∈ segs, IsSegment seg) →
    segmentsFrom cur (joinSegments segs) = cur :: segs := by
  intro segs
  induction segs with
  | nil => intro cur _; rfl
  | cons seg rest ih =>
    intro cur hsegs
    rw [joinSegments_cons]
    simp only [segmentsFrom, if_true]
    rw [segmentsFrom_digits seg [] _ (hsegs seg (List.mem_cons_self _ _)).2.2,
      ih _ fun x hx => hsegs x (List.mem_cons_of_mem _ hx)]
    simp

/-- The segments Derive walks are the groups of the path. -/
theorem pathSegments_join (p : String) (seg : List Char) (rest : List (List Char))
    (hsegs : ∀ x ∈ seg :: rest, IsSegment x) (hdata : p.data = joinSegments (seg :: rest)) :
    pathSegments p = seg :: rest := by
  rw [joinSegments_cons] at hdata
  unfold pathSegments
  rw [hdata]
  simp only
  rw [segmentsFrom_digits seg [] _ (hsegs seg (List.mem_cons_self _ _)).2.2,
    segmentsFrom_joinSegments rest _ fun x hx => hsegs x (List.mem_cons_of_mem _ hx)]
  simp

theorem foldl_deriveStep_path (K : KeyDerivation) :
    ∀ (segs : List (List Char)) (key : HDKey),
      (segs.foldl (deriveStep K) key).path = key.path ++ String.mk (joinSegments segs) := by
  intro segs
  induction segs with
  | nil =>
    intro key
    apply String.ext
    simp [joinSegments, String.data_append]
  | cons seg rest ih =>
    intro key
    rw [List.foldl_cons, ih, joinSegments_cons]
    apply String.ext
    simp [deriveStep, String.data_append]

/-- The key derived at an accepted path has the path of its parent followed by
the relative path as it is written. -/
theorem derive_ok_path (K : KeyDerivation) (fresh : UUID) (parent key : HDKey) (p : String)
    (h : Derive K fresh parent p = .ok key) : key.path = parent.path ++ p := by
  unfold Derive at h
  split at h
  · rename_i hvalid
    cases h
    obtain ⟨segs, hne, hsegs, hdata⟩ := (validateRelativePath_iff p).1 hvalid
    cases segs with
    | nil => exact absurd rfl hne
    | cons seg rest =>
      simp only [pathSegments_join p seg rest hsegs hdata, foldl_deriveStep_path]
      apply String.ext
      simp [String.data_append, hdata]
  · cases h

theorem isRelativePath_pathOfIndices (indices : List Nat) (hne : indices ≠ [])
    (hlt : ∀ i ∈ indices, i < 1000) : IsRelativePath (pathOfIndices indices) := by
  refine ⟨indices.map fun i => (toString i).data, by simpa using hne, ?_, rfl⟩
  intro seg hseg
  obtain ⟨j, hj, rfl⟩ := List.mem_map.1 hseg
  exact isSegment_decimal j (hlt j hj)

/-- C13: Derive on the empty relative path fails with
"invalid relative path. Example: /1/2/3" for every key; in particular, for every
master key produced by MasterKeyFromSeed, Derive("") fails with that error and
returns no key. -/
theorem derive_empty_path_fails (K : KeyDerivation) (fresh fresh2 : UUID) :
    (∀ key, Derive K fresh2 key "" = .error "invalid relative path. Example: /1/2/3") ∧
    (∀ (seed : List UInt8) (master : HDKey), MasterKeyFromSeed K fresh seed = .ok master →
      Derive K fresh2 master "" = .error "invalid relative path. Example: /1/2/3" ∧
      ¬ ∃ key, Derive K fresh2 master "" = .ok key) := by
  have hd : ∀ key, Derive K fresh2 key "" =
      .error "invalid relative path. Example: /1/2/3" := fun _ => rfl
  refine ⟨hd, fun seed master _ => ⟨hd master, ?_⟩⟩
  rintro ⟨key, hkey⟩
  rw [hd] at hkey
  cases hkey

/-- C13, at an example: the master key of the seed 01 02 03. -/
theorem derive_empty_path_fails_witness :
    derivedPath toyDerivation [1, 2, 3] "" = none ∧
    Derive toyDerivation 2
      { id := 1, path := basePath, privKey := toyDerivation.masterScalar [1, 2, 3] } "" =
      .error "invalid relative path. Example: /1/2/3" :=
  ⟨by decide, ((derive_empty_path_fails toyDerivation 1 2).2 [1, 2, 3] _ rfl).1⟩

/-- C14: for every seed accepted by MasterKeyFromSeed the master key's Path() is
"m/12381/3600", and for every relative path `p` accepted by Derive, segments
written with leading zeros included, the derived key's Path() is exactly
"m/12381/3600" followed by `p`; so the key derived at /007 has the path
m/12381/3600/007. -/
theorem derive_path (K : KeyDerivation) (fresh fresh2 : UUID) (seed : List UInt8)
    (master : HDKey) (h : MasterKeyFromSeed K fresh seed = .ok master) :
    master.Path = "m/12381/3600" ∧
    (∀ p key, Derive K fresh2 master p = .ok key → key.Path = "m/12381/3600" ++ p) ∧
    (∃ key, Derive K fresh2 master "/007" = .ok key ∧ key.Path = "m/12381/3600/007") := by
  have hmaster : master.path = "m/12381/3600" := by
    unfold MasterKeyFromSeed at h
    split at h
    · cases h
    · cases h; rfl
  have hgen : ∀ p key, Derive K fresh2 master p = .ok key →
      key.Path = "m/12381/3600" ++ p := by
    intro p key hkey
    rw [← hmaster]
    exact derive_ok_path K fresh2 master key p hkey
  refine ⟨hmaster, hgen, ⟨{ (pathSegments "/007").foldl (deriveStep K) master with
    id := fresh2 }, rfl, ?_⟩⟩
  exact hgen "/007" _ rfl

/-- C14, at an example: the paths of the keys derived at /007 and at /0/12/999
from the master key of the seed 01 02 03. -/
theorem derive_path_witness :
    derivedPath toyDerivation [1, 2, 3] "/007" = some "m/12381/3600/007" ∧
    derivedPath toyDerivation [1, 2, 3] "/0/12/999" = some "m/12381/3600/0/12/999" := by
  have h := (derive_path toyDerivation 1 2 [1, 2, 3] _ rfl).2.1
  refine ⟨?_, ?_⟩
  · simp only [derivedPath, MasterKeyFromSeed]
    exact congrArg some (h "/007" _ rfl)
  · simp only [derivedPath, MasterKeyFromSeed]
    exact congrArg some (h "/0/12/999" _ rfl)

/-! ## Round trip of the HDKey record -/

theorem hexValue_digit : ∀ d, d < 16 →
    hexValue ("0123456789abcdef".data.getD d '0') = some d := by
  decide

theorem fromHex_append : ∀ (xs ys : List Char) (acc : Nat),
    fromHex acc (xs ++ ys) = (fromHex acc xs).bind fun a => fromHex a ys := by
  intro xs
  induction xs with
  | nil => intro ys acc; rfl
  | cons c cs ih =>
    intro ys acc
    simp only [List.cons_append, fromHex]
    cases hexValue c with
    | none => rfl
    | some d => exact ih ys _

theorem toHex_length : ∀ (w n : Nat), (toHex w n).length = w := by
  intro w
  induction w with
  | zero => intro n; rfl
  | succ w ih => intro n; simp [toHex, ih]

theorem fromHex_toHex : ∀ (w n acc : Nat),
    fromHex acc (toHex w n) = some (acc * 16 ^ w + n % 16 ^ w) := by
  intro w
  induction w with
  | zero => intro n acc; simp [toHex, fromHex, Nat.mod_one]
  | succ w ih =>
    intro n acc
    simp only [toHex, fromHex_append, ih, Option.some_bind, fromHex,
      hexValue_digit (n % 16) (Nat.mod_lt _ (by decide))]
    congr 1
    rw [pow_succ', Nat.mod_mul]
    ring

theorem foldl_deriveStep_privKey_lt (K : KeyDerivation) :
    ∀ (segs : List (List Char)) (key : HDKey),
      key.privKey < 2 ^ 256 → (segs.foldl (deriveStep K) key).privKey < 2 ^ 256 := by
  intro segs
  induction segs with
  | nil => intro key h; exact h
  | cons i rest ih =>
    intro key _
    rw [List.foldl_cons]
    exact ih _ (K.childScalar_lt _ _)

/-- An HDKey whose scalar fits 32 bytes is read back from its record. -/
theorem hdKey_unmarshal_marshal (U : UuidCodec) (key : HDKey) (hid : ReadsBack U key.id)
    (hlt : key.privKey < 2 ^ 256) :
    HDKey.UnmarshalJSON U (HDKey.MarshalJSON U key) = .ok key := by
  have hparse : U.Parse (U.MarshalText key.id) = (key.id, none) := hid
  have hhex : fromHex 0 (toHex 64 key.privKey) = some key.privKey := by
    rw [fromHex_toHex]
    have h16 : (16 : Nat) ^ 64 = 2 ^ 256 := by norm_num
    rw [h16, Nat.mod_eq_of_lt hlt]
    simp
  simp [HDKey.UnmarshalJSON, HDKey.MarshalJSON, jsonField, List.lookup, hparse, toHex_length,
    hhex]

/-- C15: for every HDKey `k` obtained by MasterKeyFromSeed followed by a
successful Derive, with a uuid library that reads back the text it writes for the
id of `k`, unmarshalling the marshalling of `k` succeeds and yields a key with
the same Path(), the same id, the same private scalar and the same public key
bytes as `k`. -/
theorem hdKey_round_trip (K : KeyDerivation) (U : UuidCodec) (fresh fresh2 : UUID)
    (seed : List UInt8) (p : String) (master k : HDKey)
    (hmaster : MasterKeyFromSeed K fresh seed = .ok master)
    (hderive : Derive K fresh2 master p = .ok k) (hid : ReadsBack U k.id) :
    ∃ k2, HDKey.UnmarshalJSON U (HDKey.MarshalJSON U k) = .ok k2 ∧
      k2.Path = k.Path ∧ k2.id = k.id ∧ k2.privKey = k.privKey ∧
      k2.PublicKey K = k.PublicKey K := by
  have hm : master.privKey < 2 ^ 256 := by
    unfold MasterKeyFromSeed at hmaster
    split at hmaster
    · cases hmaster
    · cases hmaster; exact K.masterScalar_lt seed
  have hk : k.privKey < 2 ^ 256 := by
    unfold Derive at hderive
    split at hderive
    · cases hderive
      exact foldl_deriveStep_privKey_lt K _ master hm
    · cases hderive
  exact ⟨k, hdKey_unmarshal_marshal U k hid hk, rfl, rfl, rfl, rfl⟩

/-- C15, at an example: the key derived at /0/0 from the seed 01 02 03. -/
theorem hdKey_round_trip_witness :
    ∃ k2, HDKey.UnmarshalJSON hexCodec (HDKey.MarshalJSON hexCodec
        { (pathSegments "/0/0").foldl (deriveStep toyDerivation)
            { id := 1, path := basePath, privKey := toyDerivation.masterScalar [1, 2, 3] }
          with id := 2 }) = .ok k2 ∧
      k2.Path = "m/12381/3600/0/0" ∧ k2.id = 2 :=
  have h := hdKey_round_trip toyDerivation hexCodec 1 2 [1, 2, 3] "/0/0"
    { id := 1, path := basePath, privKey := toyDerivation.masterScalar [1, 2, 3] }
    { (pathSegments "/0/0").foldl (deriveStep toyDerivation)
        { id := 1, path := basePath, privKey := toyDerivation.masterScalar [1, 2, 3] }
      with id := 2 } rfl rfl (by decide)
  h.elim fun k2 hk => ⟨k2, hk.1, hk.2.1.trans (by decide), hk.2.2.1⟩

/-! ## The wallet paths and the grammar -/

theorem walletPath_eq_pathOfIndices (k : Nat) : walletPath k = pathOfIndices [k] := by
  apply String.ext
  simp [walletPath_data, pathOfIndices, joinSegments_cons, joinSegments, toString_data]

/-- The Derive of the spec accepts the path CreateWallet builds for every ordinal
below 1000. -/
theorem derive_accepts_walletPath (K : KeyDerivation) (fresh : UUID) (key : HDKey) (k : Nat)
    (h : k < 1000) : ∃ child, Derive K fresh key (walletPath k) = .ok child := by
  have hrel : IsRelativePath (walletPath k) := by
    rw [walletPath_eq_pathOfIndices]
    exact isRelativePath_pathOfIndices [k] (by simp) (by simpa using h)
  exact ⟨{ (pathSegments (walletPath k)).foldl (deriveStep K) key with id := fresh },
    by simp only [Derive, (validateRelativePath_iff _).2 hrel, if_true]⟩

end Eth2KeyManager
